import Mathlib

/-!
Verification development for the resource-loading core of `nltk/data.py`
(repository `pydojo/nltk_zh`).

The Python source is shallowly embedded:

* Byte strings are `List Nat` (each entry a byte value), text strings are
  `List Char`.
* The seekable underlying byte stream of `SeekableUnicodeStreamReader` is a
  `Stream` record (immutable data plus a cursor), and every method of the
  reader is a pure function from reader states to reader states.
* Python exceptions become an explicit `Err` type and fallible methods
  return `Except Err`.
* The codecs collaborator (`codecs.getdecoder`) is modelled by `Codec`
  records; the two encodings exercised by the specification's claims
  (Latin-1 and UTF-8) are built concretely.
* `while True:` loops of the source become fuel-indexed recursions; running
  out of fuel is the distinguished error `Err.fuel`, and every theorem that
  asserts an `.ok` result thereby also certifies termination of the loop.
-/

namespace NltkData

/-- Text strings of the Python source, modelled as lists of characters. -/
abbrev Str := List Char

/-- Byte strings of the Python source, as lists of byte values (each entry
`0..255` in all uses). -/
abbrev Bytes := List Nat

/-! ### The seekable underlying byte stream

Models the file-like object wrapped by `SeekableUnicodeStreamReader`:
immutable contents plus a read cursor.  `read`, `read n`, `seek`, `tell`
match the Python file protocol (reading past the end returns what is
left; absolute seeks may move past the end). -/

structure ByteStream where
  data : Bytes
  pos : Nat
deriving Repr, DecidableEq

/-- `stream.read()` with no size: everything from the cursor on. -/
def ByteStream.readAll (s : ByteStream) : Bytes × ByteStream :=
  ((s.data.drop s.pos), { s with pos := max s.pos s.data.length })

/-- `stream.read(n)`: at most `n` bytes from the cursor. -/
def ByteStream.readN (s : ByteStream) (n : Nat) : Bytes × ByteStream :=
  (((s.data.drop s.pos).take n),
   { s with pos := max s.pos (min (s.pos + n) s.data.length) })

/-- `stream.read(size)` where `size` may be `None`. -/
def ByteStream.readOpt (s : ByteStream) : Option Nat → Bytes × ByteStream
  | none => s.readAll
  | some n => s.readN n

/-- `stream.tell()`. -/
def ByteStream.tell (s : ByteStream) : Nat := s.pos

/-- `stream.seek(off)` (absolute). -/
def ByteStream.seekAbs (s : ByteStream) (off : Nat) : ByteStream :=
  { s with pos := off }

/-- `stream.seek(delta, 1)` (relative; the reader only ever rewinds by at
most the number of bytes it has just read, so the cursor stays at or above
zero; `Int.toNat` records that clamping). -/
def ByteStream.seekRel (s : ByteStream) (delta : Int) : ByteStream :=
  { s with pos := ((s.pos : Int) + delta).toNat }

/-! ### Errors

Python exceptions raised by the embedded code, as structured data.  The
message text built by the source is a human-facing concern; payloads here
keep the structured parts (positions, attempted roots, suggested package)
that the specification's contracts mention. -/

/-- Error-handling mode of a reader (`errors` argument). -/
inductive ErrMode where
  | strict
  | ignore
  | replace
deriving Repr, DecidableEq

inductive Err where
  /-- `UnicodeDecodeError` with its `start` and `end` byte offsets. -/
  | unicodeDecode (start stop : Nat)
  /-- the `ValueError` raised by `seek` for a relative seek (`whence=1`);
  the specification calls this error kind `UnsupportedOperation`. -/
  | relativeSeek
  /-- the `ValueError` raised by `char_seek_forward` for a negative offset. -/
  | negativeOffset
  /-- `IOError` from `FileSystemPathPointer.__init__`: no such file. -/
  | ioNoSuchFile (path : Str)
  /-- `IOError` from `ZipFilePathPointer.__init__`: entry not in zipfile. -/
  | ioZipEntryMissing (zipname : Str) (entry : Str)
  /-- error from `zipfile.ZipFile.__init__` on a path that is not a
  readable zip archive (`zipfile.BadZipFile`); not an `IOError`. -/
  | badZipFile (path : Str)
  /-- `KeyError` from `ZipFile.getinfo`/`ZipFile.read` on a missing entry. -/
  | keyError (entry : Str)
  /-- `LookupError` raised when `find` exhausts all roots and fallbacks;
  carries the suggested package name, the normalized resource name and the
  attempted root list (the structured payload of the message). -/
  | lookup (zipname : Str) (resourceName : Str) (roots : List Str)
  /-- `IndexError` (out-of-range sequence subscript). -/
  | indexError
  /-- `AssertionError` (a failed `assert` statement). -/
  | assertionError
  /-- fuel exhaustion of a fuel-indexed loop (never reached by proved runs). -/
  | fuel
deriving Repr, DecidableEq

/-! ### Codecs

A `Codec` models `codecs.getdecoder(encoding)`: a function from a byte
string and an error mode to either a decoded string together with the
number of bytes consumed, or a `UnicodeDecodeError` carrying the `start`
and `end` offsets of the offending range (Python's `exc.start`/`exc.end`).
On success Python's decoders consume the whole input. -/

structure Codec where
  dec : Bytes → ErrMode → Except (Nat × Nat) (Str × Nat)

/-! #### Latin-1

`latin-1` maps each byte to the character with the same code point; it is
total, so the error mode is irrelevant. -/

def latin1Codec : Codec where
  dec bs _ := .ok (bs.map Char.ofNat, bs.length)

/-- Latin-1 encoding of a character (meaningful for code points `< 256`). -/
def latin1EncChar (c : Char) : Bytes := [c.toNat]

/-! #### UTF-8

`utf8Dec` models Python's strict UTF-8 decoder.  It parses one scalar
value at a time; errors carry `(start, stop)` offsets.  A sequence
truncated by the end of the input yields `stop` equal to the input length
(Python's "unexpected end of data"), which is exactly the condition
`_incr_decode` uses to recognize a split multi-byte character. -/

/-- Is `b` a UTF-8 continuation byte (`0x80..0xBF`)? -/
def isCont (b : Nat) : Bool := 0x80 ≤ b && b < 0xC0

/-- Allowed range of the first continuation byte of a 3-byte sequence,
given its lead byte (excludes overlong forms and surrogates). -/
def cont3first (b b1 : Nat) : Bool :=
  if b = 0xE0 then 0xA0 ≤ b1 && b1 < 0xC0
  else if b = 0xED then 0x80 ≤ b1 && b1 < 0xA0
  else isCont b1

/-- Allowed range of the first continuation byte of a 4-byte sequence,
given its lead byte (excludes overlong forms and values above U+10FFFF). -/
def cont4first (b b1 : Nat) : Bool :=
  if b = 0xF0 then 0x90 ≤ b1 && b1 < 0xC0
  else if b = 0xF4 then 0x80 ≤ b1 && b1 < 0x90
  else isCont b1

/-- Shift the offsets of a decode error by `k` (used when recursing past an
already-parsed character of `k` bytes). -/
def shiftErr (k : Nat) : Except (Nat × Nat) Str → Except (Nat × Nat) Str
  | .ok cs => .ok cs
  | .error (s, e) => .error (s + k, e + k)

/-- Prepend a decoded character to the result of decoding the rest. -/
def consDec (c : Char) : Except (Nat × Nat) Str → Except (Nat × Nat) Str
  | .ok cs => .ok (c :: cs)
  | .error e => .error e

/-- Strict UTF-8 decoding of a whole byte string. -/
def utf8Dec : Bytes → Except (Nat × Nat) Str
  | [] => .ok []
  | b :: bs =>
    if b < 0x80 then
      shiftErr 1 (consDec (Char.ofNat b) (utf8Dec bs))
    else if b < 0xC2 then
      -- lone continuation byte, or the overlong leads 0xC0/0xC1
      .error (0, 1)
    else if b < 0xE0 then
      match bs with
      | [] => .error (0, 1)      -- truncated: stop = input length
      | b1 :: bs1 =>
        if isCont b1 then
          shiftErr 2 (consDec (Char.ofNat ((b - 0xC0) * 64 + (b1 - 0x80))) (utf8Dec bs1))
        else .error (0, 1)
    else if b < 0xF0 then
      match bs with
      | [] => .error (0, 1)      -- truncated: stop = input length
      | [b1] =>
        if cont3first b b1 then .error (0, 2)   -- truncated: stop = input length
        else .error (0, 1)
      | b1 :: b2 :: bs2 =>
        if cont3first b b1 then
          if isCont b2 then
            shiftErr 3 (consDec
              (Char.ofNat ((b - 0xE0) * 4096 + (b1 - 0x80) * 64 + (b2 - 0x80)))
              (utf8Dec bs2))
          else .error (0, 2)
        else .error (0, 1)
    else if b < 0xF5 then
      match bs with
      | [] => .error (0, 1)      -- truncated
      | [b1] =>
        if cont4first b b1 then .error (0, 2)   -- truncated
        else .error (0, 1)
      | [b1, b2] =>
        if cont4first b b1 then
          if isCont b2 then .error (0, 3)       -- truncated
          else .error (0, 2)
        else .error (0, 1)
      | b1 :: b2 :: b3 :: bs3 =>
        if cont4first b b1 then
          if isCont b2 then
            if isCont b3 then
              shiftErr 4 (consDec
                (Char.ofNat ((b - 0xF0) * 262144 + (b1 - 0x80) * 4096 +
                  (b2 - 0x80) * 64 + (b3 - 0x80)))
                (utf8Dec bs3))
            else .error (0, 3)
          else .error (0, 2)
        else .error (0, 1)
    else
      -- invalid lead bytes 0xF5..0xFF
      .error (0, 1)

/-- Permissive UTF-8 decoding (error modes `ignore`/`replace`): on an
error, the offending byte is dropped or replaced with U+FFFD.  Only the
strict mode is exercised by the claims (the readers under test use the
default `errors='strict'`); this models the collaborator's other modes so
that `_incr_decode` is total. -/
def utf8DecLoose (repl : Bool) : Nat → Bytes → Str
  | 0, _ => []
  | _ + 1, [] => []
  | fuel + 1, b :: bs =>
    match utf8Dec (b :: bs) with
    | .ok cs => cs
    | .error _ =>
      if b < 0x80 then Char.ofNat b :: utf8DecLoose repl fuel bs
      else if repl then Char.ofNat 0xFFFD :: utf8DecLoose repl fuel bs
      else utf8DecLoose repl fuel bs

def utf8Codec : Codec where
  dec bs mode :=
    match mode with
    | .strict =>
      match utf8Dec bs with
      | .ok cs => .ok (cs, bs.length)
      | .error e => .error e
    | .ignore => .ok (utf8DecLoose false (bs.length + 1) bs, bs.length)
    | .replace => .ok (utf8DecLoose true (bs.length + 1) bs, bs.length)

/-- UTF-8 encoding of one character. -/
def utf8EncChar (c : Char) : Bytes :=
  let n := c.toNat
  if n < 0x80 then [n]
  else if n < 0x800 then [0xC0 + n / 64, 0x80 + n % 64]
  else if n < 0x10000 then
    [0xE0 + n / 4096, 0x80 + (n / 64) % 64, 0x80 + n % 64]
  else
    [0xF0 + n / 262144, 0x80 + (n / 4096) % 64, 0x80 + (n / 64) % 64, 0x80 + n % 64]

/-- Encoding of a text under a per-character encoder. -/
def encStr (encChar : Char → Bytes) (t : Str) : Bytes := t.flatMap encChar

/-! ### `SeekableUnicodeStreamReader._incr_decode`

Decodes a byte string with the reader's codec; if the failure is exactly
at the end of the input it is treated as a truncated multi-byte character
and only the clean leading part is decoded (with the reader's error
mode). Mirrors the `while True` of the source, every branch of which
returns or raises on its first iteration. -/

def incrDecode (c : Codec) (emode : ErrMode) (bs : Bytes) : Except Err (Str × Nat) :=
  match c.dec bs .strict with
  | .ok r => .ok r
  | .error (s, e) =>
    if e = bs.length then
      -- direct truncation of a multi-byte character at the end
      match c.dec (bs.take s) emode with
      | .ok r => .ok r
      | .error (s', e') => .error (.unicodeDecode s' e')
    else if emode = .strict then
      .error (.unicodeDecode s e)
    else
      match c.dec bs emode with
      | .ok r => .ok r
      | .error (s', e') => .error (.unicodeDecode s' e')

/-! ### Encodings

The two encodings exercised by the specification's testable properties.
`bomTable` is the relevant fragment of `_BOM_TABLE`: `utf8` maps to the
single entry `(BOM_UTF8, None)` (so detection never renames the encoding),
and `latin-1` has no entry. -/

inductive Encoding where
  | latin1
  | utf8
deriving Repr, DecidableEq

def Encoding.codec : Encoding → Codec
  | .latin1 => latin1Codec
  | .utf8 => utf8Codec

def Encoding.bomTable : Encoding → List Bytes
  | .latin1 => []
  | .utf8 => [[0xEF, 0xBB, 0xBF]]

/-! ### `SeekableUnicodeStreamReader` state

`stream`, `bytebuffer`, `linebuffer`, `_rewind_checkpoint`,
`_rewind_numchars` and `_bom` as in the source.  The decoding function
(`self.decode`) is determined by the `Encoding`, which is passed to each
method (it never changes after construction for these two encodings). -/

structure Reader where
  stream : ByteStream
  errors : ErrMode
  bytebuffer : Bytes
  linebuffer : Option (List Str)
  rewindCheckpoint : Nat
  rewindNumchars : Option Nat
  bom : Option Nat
deriving Repr, DecidableEq

/-- Python truthiness of `self.linebuffer` (`None` and `[]` are falsy). -/
def lbTruthy : Option (List Str) → Bool
  | none => false
  | some l => !l.isEmpty

/-- Scan the BOM candidates against the first bytes of the stream. -/
def scanBoms : List Bytes → Bytes → Option Nat
  | [], _ => none
  | bom :: rest, bs => if bom.isPrefixOf bs then some bom.length else scanBoms rest bs

/-- `_check_bom`: read a 16-byte sample, rewind, and test the candidates. -/
def checkBom (enc : Encoding) (st : ByteStream) : Option Nat × ByteStream :=
  match enc.bomTable with
  | [] => (none, st)
  | boms =>
    let p := st.readN 16
    (scanBoms boms p.1, p.2.seekAbs 0)

/-- `SeekableUnicodeStreamReader.__init__`: rewind the stream, record the
error mode and detect the byte order marker. -/
def mkReader (enc : Encoding) (emode : ErrMode) (st : ByteStream) : Reader :=
  let st0 := st.seekAbs 0
  let p := checkBom enc st0
  { stream := p.2
    errors := emode
    bytebuffer := []
    linebuffer := none
    rewindCheckpoint := 0
    rewindNumchars := none
    bom := p.1 }

/-- The `while not chars:` fill loop of `_read`: keep reading one byte at
a time until at least one character decodes (or the stream ends).  One
fuel unit per iteration; each iteration advances the stream cursor, so
`_read` supplies fuel exceeding the stream length. -/
def readUntilChars (c : Codec) (emode : ErrMode) :
    Nat → ByteStream → Bytes → Str → Nat → Except Err (Str × Nat × Bytes × ByteStream)
  | 0, _, _, _, _ => .error .fuel
  | fuel + 1, st, bytes, chars, bd =>
    if chars.isEmpty then
      let p := st.readN 1
      if p.1.isEmpty then .ok (chars, bd, bytes, p.2)
      else
        match incrDecode c emode (bytes ++ p.1) with
        | .error e => .error e
        | .ok (chars', bd') => readUntilChars c emode fuel p.2 (bytes ++ p.1) chars' bd'
    else .ok (chars, bd, bytes, st)

/-- `_read(size)`: skip the BOM at position 0, read, decode incrementally,
fill if nothing decoded, and hold back undecoded trailing bytes. -/
def Reader.readRaw (r : Reader) (c : Codec) (size : Option Nat) : Except Err (Str × Reader) :=
  if size = some 0 then .ok ([], r)
  else
    -- skip past the byte order marker, if present
    let st0 := match r.bom with
      | some n => if r.stream.tell = 0 then (r.stream.readN n).2 else r.stream
      | none => r.stream
    -- read the requested number of bytes
    let p := st0.readOpt size
    let newBytes := p.1
    let bytes := r.bytebuffer ++ newBytes
    match incrDecode c r.errors bytes with
    | .error e => .error e
    | .ok (chars, bd) =>
      -- if we got bytes but could not decode any of them, read further
      if size.isSome && chars.isEmpty && !newBytes.isEmpty then
        match readUntilChars c r.errors (p.2.data.length + 1) p.2 bytes chars bd with
        | .error e => .error e
        | .ok (chars', bd', bytes', st2) =>
          .ok (chars', { r with stream := st2, bytebuffer := bytes'.drop bd' })
      else
        .ok (chars, { r with stream := p.2, bytebuffer := bytes.drop bd })

/-- `read(size)`: `_read`, with any buffered lines prepended. -/
def Reader.read (r : Reader) (c : Codec) (size : Option Nat) : Except Err (Str × Reader) :=
  match r.readRaw c size with
  | .error e => .error e
  | .ok (chars, r1) =>
    if lbTruthy r1.linebuffer then
      .ok ((r1.linebuffer.getD []).flatten ++ chars,
           { r1 with
             linebuffer := none
             rewindNumchars := none })
    else .ok (chars, r1)

/-! #### `splitlines`

Python's `str.splitlines`, with its full set of line boundaries
(`\n`, `\r`, `\r\n`, `\v`, `\f`, FS, GS, RS, NEL, LS, PS). -/

def isLineBreak (ch : Char) : Bool :=
  ch = '\n' || ch = '\r' || ch = '\x0b' || ch = '\x0c' ||
  ch = '\x1c' || ch = '\x1d' || ch = '\x1e' || ch = '\u0085' ||
  ch = '\u2028' || ch = '\u2029'

/-- Take one line (with its terminator) off the front. -/
def splitOneLine : Str → Str × Str
  | [] => ([], [])
  | ch :: rest =>
    if ch = '\r' then
      match rest with
      | [] => (['\r'], [])
      | c2 :: rest' =>
        if c2 = '\n' then (['\r', '\n'], rest') else (['\r'], c2 :: rest')
    else if isLineBreak ch then ([ch], rest)
    else
      let p := splitOneLine rest
      (ch :: p.1, p.2)

theorem splitOneLine_rest_lt : ∀ (ch : Char) (rest : Str),
    (splitOneLine (ch :: rest)).2.length < (ch :: rest).length := by
  intro ch rest
  induction rest generalizing ch with
  | nil =>
    simp only [splitOneLine]
    split
    · simp
    · split <;> simp [splitOneLine]
  | cons c2 rest2 ih =>
    have hc := ih c2
    rw [splitOneLine]
    split
    · split <;> simp <;> omega
    · split
      · simp
      · simp only [List.length_cons] at *
        omega

/-- Fuel-indexed core of `splitlines(True)` (each split strictly shortens
the rest, so fuel equal to the length suffices). -/
def splitlinesKeepF : Nat → Str → List Str
  | 0, _ => []
  | _ + 1, [] => []
  | fuel + 1, ch :: rest =>
    let p := splitOneLine (ch :: rest)
    p.1 :: splitlinesKeepF fuel p.2

/-- `chars.splitlines(True)`. -/
def splitlinesKeep (cs : Str) : List Str := splitlinesKeepF cs.length cs

/-- Strip one trailing line terminator (used for `splitlines(False)`). -/
def stripEOL (l : Str) : Str :=
  match l.reverse with
  | '\n' :: '\r' :: rest => rest.reverse
  | c :: _ => if isLineBreak c then l.dropLast else l
  | [] => l

/-- `chars.splitlines(False)`. -/
def splitlinesDrop (cs : Str) : List Str := (splitlinesKeep cs).map stripEOL

/-! #### `readline` -/

/-- The `while True:` body of `readline`.  One fuel unit per iteration; the
loop exits on a complete line, on end of input, or when `size` was given. -/
def readlineLoop (c : Codec) : Nat → Reader → Option Nat → Str → Nat → Except Err (Str × Reader)
  | 0, _, _, _, _ => .error .fuel
  | fuel + 1, r, size, chars, readsize =>
    let startpos := r.stream.tell - r.bytebuffer.length
    match r.readRaw c (some readsize) with
    | .error e => .error e
    | .ok (newChars0, r1) =>
      -- at a trailing '\r', read one extra character to catch a following '\n'
      match ((if !newChars0.isEmpty && newChars0.getLastD ' ' = '\r' then
               match r1.readRaw c (some 1) with
               | .error e => .error e
               | .ok (extra, r2) => .ok (newChars0 ++ extra, r2)
             else .ok (newChars0, r1)) : Except Err (Str × Reader)) with
      | .error e => .error e
      | .ok (newChars, r2) =>
        let chars' := chars ++ newChars
        let lines := splitlinesKeep chars'
        if lines.length > 1 then
          .ok (lines.headD [],
            { r2 with
              linebuffer := some lines.tail
              rewindNumchars :=
                some (newChars.length - (chars'.length - (lines.headD []).length))
              rewindCheckpoint := startpos })
        else if lines.length = 1 &&
            lines.headD [] ≠ (splitlinesDrop (lines.headD [])).headD [] then
          -- a complete single line
          .ok (lines.headD [], r2)
        else if newChars.isEmpty || size.isSome then
          .ok (chars', r2)
        else
          readlineLoop c fuel r2 size chars'
            (if readsize < 8000 then readsize * 2 else readsize)

/-- `readline(size)`. -/
def Reader.readline (r : Reader) (c : Codec) (size : Option Nat) : Except Err (Str × Reader) :=
  if lbTruthy r.linebuffer ∧ (r.linebuffer.getD []).length > 1 then
    -- return the first buffered line
    let lb := r.linebuffer.getD []
    .ok (lb.headD [],
      { r with
        linebuffer := some lb.tail
        -- `_rewind_numchars += len(line)`; it is `some _` whenever the
        -- linebuffer is (an invariant of all reachable states)
        rewindNumchars := some ((r.rewindNumchars.getD 0) + (lb.headD []).length) })
  else
    -- `readsize = size or 72` (Python truthiness: `some 0` also gives 72)
    let readsize := match size with
      | some n => if n = 0 then 72 else n
      | none => 72
    -- a remaining incomplete line in the buffer is carried over
    let pr :=
      if lbTruthy r.linebuffer then
        (((r.linebuffer.getD []).getLastD []), { r with linebuffer := none })
      else (([] : Str), r)
    readlineLoop c (r.stream.data.length + 2) pr.2 size pr.1 readsize

/-! #### `seek` and character seeking -/

/-- `seek(offset, whence)`: relative seeks are rejected before any state
changes; other seeks move the underlying stream and discard every buffer. -/
def Reader.seek (r : Reader) (offset : Int) (whence : Nat) : Except Err Reader :=
  if whence = 1 then .error .relativeSeek
  else
    let st :=
      if whence = 2 then { r.stream with pos := ((r.stream.data.length : Int) + offset).toNat }
      else { r.stream with pos := offset.toNat }
    .ok { r with
          stream := st
          linebuffer := none
          bytebuffer := []
          rewindNumchars := none
          rewindCheckpoint := st.tell }

/-- The inner back-up loop of `_char_seek_forward` (`while len(chars) >
offset`): shrink the decoded window until exactly `offset` characters. -/
def innerBackoff (c : Codec) (emode : ErrMode) (bytes : Bytes) (offset : Nat) :
    Nat → Nat → Str → Nat → Except Err (Str × Nat)
  | 0, _, _, _ => .error .fuel
  | fuel + 1, est, chars, bd =>
    if chars.length > offset then
      -- assume at least one byte per character
      let est' := est - (chars.length - offset)
      match incrDecode c emode (bytes.take est') with
      | .error e => .error e
      | .ok (chars', bd') => innerBackoff c emode bytes offset fuel est' chars' bd'
    else .ok (chars, bd)

/-- The outer `while True:` of `_char_seek_forward`: read blocks, decode,
and either finish (seeking back over undecoded bytes) or enlarge the
estimate and loop.  `est ≥ bytes.length` holds on every iteration, so the
`Nat` subtraction in the read request is exact. -/
def csfLoop (c : Codec) (emode : ErrMode) :
    Nat → ByteStream → Bytes → Nat → Nat → Except Err ByteStream
  | 0, _, _, _, _ => .error .fuel
  | fuel + 1, st, bytes, offset, est =>
    let p := st.readN (est - bytes.length)
    let bytes' := bytes ++ p.1
    match incrDecode c emode bytes' with
    | .error e => .error e
    | .ok (chars, bd) =>
      if chars.length = offset then
        .ok (p.2.seekRel ((bd : Int) - bytes'.length))
      else if chars.length > offset then
        match innerBackoff c emode bytes' offset (est + 2) est chars bd with
        | .error e => .error e
        | .ok (_, bd') => .ok (p.2.seekRel ((bd' : Int) - bytes'.length))
      else
        csfLoop c emode fuel p.2 bytes' offset (est + (offset - chars.length))

/-- `_char_seek_forward(offset, est_bytes)`: moves only the underlying
stream, ignoring and leaving all reader buffers. -/
def Reader.charSeekForwardRaw (r : Reader) (c : Codec) (offset : Nat)
    (estBytes : Option Nat) : Except Err Reader :=
  match csfLoop c r.errors (r.stream.data.length + offset + 2) r.stream []
      offset (estBytes.getD offset) with
  | .error e => .error e
  | .ok st => .ok { r with stream := st }

/-- `tell()`: with no line buffer, the position is the stream position less
the held-back bytes; otherwise backtrack to the rewind checkpoint and seek
forward exactly `_rewind_numchars` characters, guided by a byte estimate.
Python computes the estimate as `int(bytes_read * numchars / (numchars +
buf_size))` with float division; `Nat` division gives the same truncated
value whenever the float quotient is exact, and the estimate is only a
hint, corrected by the exact search that follows.  The `DEBUG` sanity
check of the source (the class sets `DEBUG = True`) is performed. -/
def Reader.tell (r : Reader) (c : Codec) : Except Err (Nat × Reader) :=
  match r.linebuffer with
  | none => .ok (r.stream.tell - r.bytebuffer.length, r)
  | some lb =>
    let origFilepos := r.stream.tell
    let bytesRead := (origFilepos - r.bytebuffer.length) - r.rewindCheckpoint
    let bufSize := (lb.map List.length).sum
    -- `_rewind_numchars` is `some _` whenever the linebuffer is
    let nc := r.rewindNumchars.getD 0
    let est := bytesRead * nc / (nc + bufSize)
    match Reader.charSeekForwardRaw
        { r with stream := r.stream.seekAbs r.rewindCheckpoint } c nc (some est) with
    | .error e => .error e
    | .ok r2 =>
      let filepos := r2.stream.tell
      -- sanity check: re-decode from the computed position and compare
      let p := (r2.stream.seekAbs filepos).readN 50
      match incrDecode c r.errors p.1 with
      | .error e => .error e
      | .ok (check1, _) =>
        let check2 := lb.flatten
        if check2.isPrefixOf check1 || check1.isPrefixOf check2 then
          .ok (filepos, { r2 with stream := p.2.seekAbs origFilepos })
        else .error .assertionError

/-- `char_seek_forward(offset)`: rejects negative offsets, clears the
buffers via `seek(tell())`, then performs the raw character seek. -/
def Reader.charSeekForward (r : Reader) (c : Codec) (offset : Int) : Except Err Reader :=
  if offset < 0 then .error .negativeOffset
  else
    match r.tell c with
    | .error e => .error e
    | .ok (t, r1) =>
      match r1.seek (t : Int) 0 with
      | .error e => .error e
      | .ok r2 => r2.charSeekForwardRaw c offset.toNat none

/-! #### Call sequences

`Op` is one `read(size)` or `readline(size)` call; `runAll` performs a
sequence of calls followed by a final unbounded `read()` and concatenates
everything that was returned. -/

inductive Op where
  | opRead (size : Option Nat)
  | opReadline (size : Option Nat)
deriving Repr, DecidableEq

def Reader.step (r : Reader) (c : Codec) : Op → Except Err (Str × Reader)
  | .opRead size => r.read c size
  | .opReadline size => r.readline c size

def runOps (c : Codec) (r : Reader) : List Op → Except Err (Str × Reader)
  | [] => .ok ([], r)
  | op :: ops =>
    match r.step c op with
    | .error e => .error e
    | .ok (out, r') =>
      match runOps c r' ops with
      | .error e => .error e
      | .ok (out', r'') => .ok (out ++ out', r'')

def runAll (c : Codec) (r : Reader) (ops : List Op) : Except Err Str :=
  match runOps c r ops with
  | .error e => .error e
  | .ok (out, r') =>
    match r'.read c none with
    | .error e => .error e
    | .ok (out', _) => .ok (out ++ out')

/-! ### Posix path strings

String helpers used by the resolver, on `Str`.  The host platform is
posix (`os.path.sep = '/'`, `sys.platform` not Windows), fixing the
platform-conditional branches of the source. -/

/-- Shorthand for string literals as `Str`. -/
def lit (s : String) : Str := s.data

/-- Python `s.split("/")` (keeps empty pieces). -/
def splitSep : Str → List Str
  | [] => [[]]
  | ch :: rest =>
    let r := splitSep rest
    if ch = '/' then [] :: r
    else (ch :: r.headD []) :: r.tail

/-- Python `"/".join(pieces)`. -/
def joinSep (ps : List Str) : Str := List.intercalate ['/'] ps

/-- `os.path.join` (posix, two arguments). -/
def osJoin (a b : Str) : Str :=
  if b.headD ' ' = '/' then b
  else if a = [] ∨ a.getLastD ' ' = '/' then a ++ b
  else a ++ '/' :: b

/-- `os.path.normpath` (posix).  The input here always has at most one
leading slash (`normalize_resource_name` collapses runs of them first), so
the special posix treatment of exactly two leading slashes cannot arise. -/
def normpath (p : Str) : Str :=
  let isAbs := p.headD ' ' = '/'
  let comps := (splitSep p).filter (fun comp => comp ≠ [] ∧ comp ≠ ['.'])
  let newComps := comps.foldl
    (fun acc comp =>
      if comp = ['.', '.'] then
        if acc ≠ [] ∧ acc.getLastD [] ≠ ['.', '.'] then acc.dropLast
        else if isAbs then acc
        else acc ++ [comp]
      else acc ++ [comp]) []
  let joined := joinSep newComps
  if isAbs then '/' :: joined
  else if joined = [] then ['.'] else joined

/-- `normalize_resource_name(name, True)` on posix: the `allow_relative`
path used by `find` and by `ZipFilePathPointer.__init__` (the
`allow_relative=False` branch, which routes through `os.path.abspath`, is
used only by URL normalization, which no claim exercises). -/
def normalizeResourceNameRel (resourceName : Str) : Str :=
  -- is_dir: the name matches `[\\/.]$` or ends with `os.path.sep`
  let isDir : Bool := match resourceName.getLast? with
    | some ch => ch = '/' || ch = '\\' || ch = '.'
    | none => false
  -- collapse leading slashes: re.sub(r"^/+", "/", ...)
  let n1 := if resourceName.headD ' ' = '/' then
      '/' :: resourceName.dropWhile (· = '/')
    else resourceName
  let n2 := normpath n1
  -- replace backslashes with slashes (os.path.sep is already "/")
  let n3 := n2.map (fun ch => if ch = '\\' then '/' else ch)
  if isDir ∧ n3.getLastD ' ' ≠ '/' then n3 ++ ['/'] else n3

/-- `url2pathname` (posix) percent-decodes its argument; resource names in
these claims contain no percent escapes, where it is the identity.  The
theorems about `find` carry a no-percent hypothesis to mark this modelling
boundary of the urllib collaborator. -/
def url2pathname (s : Str) : Str := s

/-! ### The filesystem environment

The operating-system collaborators (`os.path`, `open`, `zipfile`): which
paths exist, which are files or directories, the current directory, and
which paths hold readable zip archives (with their entry listings and
contents). -/

structure Env where
  pathExists : Str → Bool
  isFile : Str → Bool
  isDir : Str → Bool
  cwd : Str
  /-- `some names` when the path holds a readable zip archive listing
  `names`; `none` when opening it as a zip fails. -/
  zipArchive : Str → Option (List Str)
  /-- contents of an entry of the archive at the given path. -/
  zipData : Str → Str → Bytes

/-- `os.path.abspath` (posix): join with the working directory, normalize. -/
def abspath (env : Env) (p : Str) : Str := normpath (osJoin env.cwd p)

/-! ### `OpenOnDemandZipFile` -/

/-- The archive handle: filename, cached directory listing, and whether
the handle currently owns an open file descriptor (`self.fp`). -/
structure OODZipFile where
  filename : Str
  names : List Str
  fpOpen : Bool
deriving Repr, DecidableEq

/-- `OpenOnDemandZipFile.__init__`: open the archive (reading its central
directory), fail fast if it is not a readable zip, and close immediately. -/
def openOnDemandZipFile (env : Env) (filename : Str) : Except Err OODZipFile :=
  match env.zipArchive filename with
  | none => .error (.badZipFile filename)
  | some ns => .ok { filename := filename, names := ns, fpOpen := false }

/-- `OpenOnDemandZipFile.read(name)`.  Returns the result together with
the final handle state, so that descriptor ownership is observable on
every exit path:
* `self.fp = open(self.filename, 'rb')` sets the descriptor;
* `zipfile.ZipFile.read` raises `KeyError` on a missing entry, in which
  case the `self.close()` below it is never executed;
* on success `self.close()` releases the descriptor. -/
def OODZipFile.read (z : OODZipFile) (env : Env) (name : Str) :
    Except Err Bytes × OODZipFile :=
  if z.fpOpen then (.error .assertionError, z)  -- assert self.fp is None
  else
    let z1 := { z with fpOpen := true }
    if name ∈ z.names then
      (.ok (env.zipData z.filename name), { z1 with fpOpen := false })
    else
      (.error (.keyError name), z1)

/-! ### Path pointers -/

inductive PathPtr where
  /-- `FileSystemPathPointer` (stores the absolute path). -/
  | fs (path : Str)
  /-- `GzipFileSystemPathPointer`. -/
  | gzfs (path : Str)
  /-- `ZipFilePathPointer`: a shared archive handle and an entry name. -/
  | zip (zf : OODZipFile) (entry : Str)
deriving Repr, DecidableEq

/-- `FileSystemPathPointer.__init__`: make the path absolute and require
that it exists. -/
def fileSystemPathPointer (env : Env) (p : Str) : Except Err PathPtr :=
  let ap := abspath env p
  if env.pathExists ap then .ok (.fs ap) else .error (.ioNoSuchFile ap)

/-- `GzipFileSystemPathPointer` construction (inherited `__init__`). -/
def gzipFileSystemPathPointer (env : Env) (p : Str) : Except Err PathPtr :=
  let ap := abspath env p
  if env.pathExists ap then .ok (.gzfs ap) else .error (.ioNoSuchFile ap)

/-- The entry validation of `ZipFilePathPointer.__init__`: normalize the
entry; accept it if the archive lists it, or — tolerating directory
entries that are not explicitly listed — if it ends with `/` and some
listed name extends it; otherwise `IOError`. -/
def zipEntryCheck (zf : OODZipFile) (entry : Str) : Except Err Str :=
  if entry = [] then .ok entry
  else
    let e := (normalizeResourceNameRel entry).dropWhile (· = '/')
    if e ∈ zf.names then .ok e
    else if e.getLastD ' ' = '/' ∧ zf.names.any (fun n => e.isPrefixOf n) then .ok e
    else .error (.ioZipEntryMissing zf.filename e)

/-- `ZipFilePathPointer(zipfile, entry)` for an existing archive handle. -/
def zipFilePathPointerOfZip (zf : OODZipFile) (entry : Str) : Except Err PathPtr :=
  match zipEntryCheck zf entry with
  | .error e => .error e
  | .ok e => .ok (.zip zf e)

/-- `ZipFilePathPointer(path, entry)` for a string argument: construct the
`OpenOnDemandZipFile` for the absolute path first. -/
def zipFilePathPointerOfPath (env : Env) (path entry : Str) : Except Err PathPtr :=
  match openOnDemandZipFile env (abspath env path) with
  | .error e => .error e
  | .ok zf => zipFilePathPointerOfZip zf entry

/-- `join(fileid)` on each pointer variant.  The filesystem variants
concatenate with `os.path.join` and re-validate through the constructor;
`GzipFileSystemPathPointer` inherits the method, so its result is a plain
`FileSystemPathPointer`.  The zip variant concatenates the entry strings
with `/` and constructs a new `ZipFilePathPointer` on the shared handle. -/
def PathPtr.join (env : Env) : PathPtr → Str → Except Err PathPtr
  | .fs p, fileid => fileSystemPathPointer env (osJoin p fileid)
  | .gzfs p, fileid => fileSystemPathPointer env (osJoin p fileid)
  | .zip zf entry, fileid => zipFilePathPointerOfZip zf (entry ++ '/' :: fileid)

/-! ### The resolver `find` -/

/-- Which exceptions `except IOError:` catches in `find`'s loop. -/
def Err.isIOError : Err → Bool
  | .ioNoSuchFile _ => true
  | .ioZipEntryMissing _ _ => true
  | _ => false

/-- Which exceptions `except LookupError:` catches in `find`'s fallback
(Python's `IndexError` and `KeyError` are subclasses of `LookupError`). -/
def Err.isLookupError : Err → Bool
  | .lookup _ _ _ => true
  | .indexError => true
  | .keyError _ => true
  | _ => false

/-- `s.rpartition(".")[0]`: everything before the last dot (empty when
there is none). -/
def rpartitionBeforeDot (s : Str) : Str :=
  match ((List.range s.length).filter (fun i => s.getD i ' ' = '.')).max? with
  | none => []
  | some i => s.take i

/-- One candidate of `find`'s fallback: duplicate path segment `i` with
`.zip` appended to the copy (`corpora/x/y`, position 1 ↦
`corpora/x.zip/x/y`). -/
def fallbackCandidate (resourceName : Str) (i : Nat) : Str :=
  let pieces := splitSep resourceName
  joinSep (pieces.take i ++ [pieces.getD i [] ++ lit ".zip"] ++ pieces.drop i)

/-- The split of `re.match(r"(.*\.zip)/?(.*)$|", resource_name)`: the
greedy `(.*\.zip)` takes the longest prefix ending in `.zip`; an optional
following slash is consumed; the rest is the entry.  `none` when no prefix
ends in `.zip` (the empty alternative of the regex). -/
def zipSplit (name : Str) : Option (Str × Str) :=
  match ((List.range (name.length + 1)).filter
      (fun i => (lit ".zip").isSuffixOf (name.take i))).max? with
  | none => none
  | some i =>
    let rest := name.drop i
    some (name.take i, if rest.headD ' ' = '/' then rest.tail else rest)

/-- One iteration of the `for path_ in paths:` loop of `find`, for one
root: `ok (some ptr)` is `return`, `ok none` is "fall through to the next
root" (including the caught per-root `IOError`s: missing entry, missing
file), `error` is an uncaught exception (e.g. a bad zip file). -/
def tryRoot (env : Env) (resourceName : Str) (zs : Option (Str × Str))
    (path_ : Str) : Except Err (Option PathPtr) :=
  -- Is the path item a zipfile?
  if path_ ≠ [] ∧ env.isFile path_ ∧ (lit ".zip").isSuffixOf path_ then
    match zipFilePathPointerOfPath env path_ resourceName with
    | .ok ptr => .ok (some ptr)
    | .error e => if e.isIOError then .ok none else .error e
  -- Is the path item a directory, or is resource_name an absolute path?
  else if path_ = [] ∨ env.isDir path_ then
    match zs with
    | none =>
      -- p = os.path.join(path_, url2pathname(resource_name))
      if env.pathExists (osJoin path_ (url2pathname resourceName)) then
        if (lit ".gz").isSuffixOf (osJoin path_ (url2pathname resourceName)) then
          gzipFileSystemPathPointer env (osJoin path_ (url2pathname resourceName)) |>.map some
        else fileSystemPathPointer env (osJoin path_ (url2pathname resourceName)) |>.map some
      else .ok none
    | some (zipfileName, zipentry) =>
      -- p = os.path.join(path_, url2pathname(zipfile))
      if env.pathExists (osJoin path_ (url2pathname zipfileName)) then
        match zipFilePathPointerOfPath env (osJoin path_ (url2pathname zipfileName)) zipentry with
        | .ok ptr => .ok (some ptr)
        | .error e => if e.isIOError then .ok none else .error e
      else .ok none
  else .ok none

/-- The root loop of `find`: roots in order, first success wins. -/
def findLoop (env : Env) (resourceName : Str) (zs : Option (Str × Str)) :
    List Str → Except Err (Option PathPtr)
  | [] => .ok none
  | path_ :: rest =>
    match tryRoot env resourceName zs path_ with
    | .ok none => findLoop env resourceName zs rest
    | .ok (some ptr) => .ok (some ptr)
    | .error e => .error e

/-- The fallback loop of `find`, over the list of segment positions,
parameterized by the re-entry continuation (`find` itself at smaller
fuel): for each position `i` (left to right), try the candidate name;
`LookupError` (which in Python also covers `IndexError` and `KeyError`)
from a candidate means "try the next position". -/
def findFallbackWith (f : Str → Except Err PathPtr) (resourceName : Str) :
    List Nat → Except Err (Option PathPtr)
  | [] => .ok none
  | i :: is =>
    match f (fallbackCandidate resourceName i) with
    | .ok ptr => .ok (some ptr)
    | .error e =>
      if e.isLookupError then findFallbackWith f resourceName is
      else .error e

/-- `find(resource_name, paths)` (fuel-indexed: the zip-insertion fallback
re-enters `find` on modified names). -/
def findAux (env : Env) : Nat → Str → List Str → Except Err PathPtr
  | 0, _, _ => .error .fuel
  | fuel + 1, resourceName0, paths =>
    let resourceName := normalizeResourceNameRel resourceName0
    let zs := zipSplit resourceName
    match findLoop env resourceName zs paths with
    | .error e => .error e
    | .ok (some ptr) => .ok ptr
    | .ok none =>
      match (if zs = none then
               findFallbackWith (fun m => findAux env fuel m paths) resourceName
                 (List.range (splitSep resourceName).length)
             else .ok none : Except Err (Option PathPtr)) with
      | .error e => .error e
      | .ok (some ptr) => .ok ptr
      | .ok none =>
        -- identify the package (the .zip file) to suggest downloading
        let pieces := splitSep resourceName
        match pieces.get? 1 with
        | none => .error .indexError   -- resource_name.split("/")[1]
        | some seg1 =>
          let zipname :=
            if (lit ".zip").isSuffixOf seg1 then rpartitionBeforeDot seg1 else seg1
          .error (.lookup zipname resourceName paths)

/-- `find`: fuel amply covering the fallback's bounded re-entry (a
candidate name contains `.zip`, so its own fallback is skipped). -/
def find (env : Env) (resourceName : Str) (paths : List Str) : Except Err PathPtr :=
  findAux env (resourceName.length + 2) resourceName paths

/-! ### The `load` cache

The cache-interaction skeleton of `load` (the per-format decoding is the
oracle `resources`, giving what a fresh resolve-open-decode of a
normalized URL and format yields; `none` is Python's `None`, e.g. an empty
YAML document).  `opens` counts resolve-open-decode passes. -/

/-- `_resource_cache.get(key)`: Python's `dict.get` returns `None` both
for an absent key and for a stored `None`. -/
def cacheGet {V : Type} (cache : List ((Str × Str) × Option V)) (k : Str × Str) :
    Option V :=
  (cache.lookup k).getD none

/-- `_resource_cache[key] = val` (the `except TypeError` guard of the
source never fires for a dict assignment; its comment is a leftover from a
weak-value cache). -/
def cacheSet {V : Type} (cache : List ((Str × Str) × Option V)) (k : Str × Str)
    (v : Option V) : List ((Str × Str) × Option V) :=
  (k, v) :: cache.filter (fun e => e.1 ≠ k)

structure LoadState (V : Type) where
  cache : List ((Str × Str) × Option V)
  opens : Nat

/-- The caching skeleton of `load(url, format, cache=...)`: on a cache hit
(`cache` true and the stored value `is not None`) return it without
touching storage; otherwise resolve, open and decode (counted by `opens`),
and insert the result when `cache` is true. -/
def loadModel {V : Type} (resources : Str × Str → Option V) (key : Str × Str)
    (cacheFlag : Bool) (st : LoadState V) : Option V × LoadState V :=
  if cacheFlag then
    match cacheGet st.cache key with
    | some v => (some v, st)
    | none =>
      let v := resources key
      (v, { cache := cacheSet st.cache key v, opens := st.opens + 1 })
  else
    (resources key, { st with opens := st.opens + 1 })

/-! ## Theorems -/

/-! ### Concrete environments for witnesses and counterexamples -/

/-- A minimal filesystem: the zip `/pkg.zip` holds the single entry
`a/b.txt` (contents `[1, 2, 3]`); `/` is a directory. -/
def envZ : Env where
  pathExists p := p = lit "/pkg.zip"
  isFile p := p = lit "/pkg.zip"
  isDir p := p = lit "/"
  cwd := lit "/"
  zipArchive p := if p = lit "/pkg.zip" then some [lit "a/b.txt"] else none
  zipData _ _ := [1, 2, 3]

/-! ### C6: descriptor ownership of `OpenOnDemandZipFile.read` -/

/-- C6: evaluation of `read` on both exit paths.  On success the
descriptor is released; but on a missing entry `zipfile.ZipFile.read`
raises `KeyError` before the `self.close()` that follows it, so the
descriptor opened at the start of the call is still open when the error
propagates — the release is not guaranteed on every exit path. -/
theorem c6_read_descriptor :
    ((OODZipFile.read
        { filename := lit "/pkg.zip", names := [lit "a/b.txt"], fpOpen := false }
        envZ (lit "a/b.txt")).1 = .ok [1, 2, 3]
      ∧ (OODZipFile.read
        { filename := lit "/pkg.zip", names := [lit "a/b.txt"], fpOpen := false }
        envZ (lit "a/b.txt")).2.fpOpen = false)
    ∧ ((OODZipFile.read
        { filename := lit "/pkg.zip", names := [lit "a/b.txt"], fpOpen := false }
        envZ (lit "missing.txt")).1 = .error (.keyError (lit "missing.txt"))
      ∧ (OODZipFile.read
        { filename := lit "/pkg.zip", names := [lit "a/b.txt"], fpOpen := false }
        envZ (lit "missing.txt")).2.fpOpen = true) := by
  refine ⟨⟨rfl, rfl⟩, rfl, rfl⟩

/-! ### C8: `seek` whence handling -/

/-- C8: `seek(offset, 1)` is rejected (the `ValueError` the specification
calls `UnsupportedOperation`) before any state is touched; `whence` 0 and
2 succeed and discard the line buffer, the byte buffer and the rewind
bookkeeping, re-anchoring the checkpoint at the new stream position. -/
theorem c8_seek_behavior (r : Reader) (offset : Int) (whence : Nat) :
    (r.seek offset 1 = .error .relativeSeek) ∧
    (whence = 0 ∨ whence = 2 →
      ∃ r', r.seek offset whence = .ok r' ∧
        r'.linebuffer = none ∧ r'.bytebuffer = [] ∧
        r'.rewindNumchars = none ∧ r'.rewindCheckpoint = r'.stream.tell ∧
        r'.errors = r.errors ∧ r'.stream.data = r.stream.data) := by
  refine ⟨by simp [Reader.seek], ?_⟩
  rintro (h | h) <;> subst h
  · exact ⟨_, rfl, rfl, rfl, rfl, rfl, rfl, rfl⟩
  · exact ⟨_, rfl, rfl, rfl, rfl, rfl, rfl, rfl⟩

/-- C8 witness: a concrete absolute seek on a concrete reader. -/
theorem c8_seek_behavior_witness :
    ∃ r', (mkReader .latin1 .strict ⟨[65, 66], 0⟩).seek 1 0 = .ok r' ∧
      r'.linebuffer = none ∧ r'.bytebuffer = [] ∧
      r'.rewindNumchars = none ∧ r'.rewindCheckpoint = r'.stream.tell ∧
      r'.errors = (mkReader .latin1 .strict ⟨[65, 66], 0⟩).errors ∧
      r'.stream.data = (mkReader .latin1 .strict ⟨[65, 66], 0⟩).stream.data :=
  (c8_seek_behavior (mkReader .latin1 .strict ⟨[65, 66], 0⟩) 1 0).2 (Or.inl rfl)

/-! ### C10: `None` in the resource cache -/

/-- C10: when a resource decodes to `None`, `load` inserts `None` into the
cache, but the cache-hit test (`dict.get` + `is not None`) treats the
stored entry as absent, so the value is never served from the cache: every
later call with the same key re-resolves, re-opens and re-decodes. -/
theorem c10_none_cached_never_served {V : Type} (resources : Str × Str → Option V)
    (key : Str × Str) (st : LoadState V)
    (hres : resources key = none) (hmiss : cacheGet st.cache key = none) :
    (loadModel resources key true st).1 = none ∧
    (loadModel resources key true st).2.opens = st.opens + 1 ∧
    (loadModel resources key true st).2.cache.lookup key = some none ∧
    (∀ st' : LoadState V, st'.cache.lookup key = some none →
      (loadModel resources key true st').1 = resources key ∧
      (loadModel resources key true st').2.opens = st'.opens + 1) := by
  refine ⟨?_, ?_, ?_, ?_⟩
  · simp [loadModel, hmiss, hres]
  · simp [loadModel, hmiss]
  · simp [loadModel, hmiss, cacheSet, List.lookup, hres]
  · intro st' hst'
    have hmiss' : cacheGet st'.cache key = none := by
      simp [cacheGet, hst']
    constructor <;> simp [loadModel, hmiss']

/-- C10 witness: an empty-YAML-style resource (`none`) on an empty cache. -/
theorem c10_none_cached_never_served_witness :
    (loadModel (V := Nat) (fun _ => none) (lit "nltk:corpora/e.yaml", lit "yaml")
        true ⟨[], 0⟩).1 = none ∧
    (loadModel (V := Nat) (fun _ => none) (lit "nltk:corpora/e.yaml", lit "yaml")
        true ⟨[], 0⟩).2.opens = 0 + 1 ∧
    (loadModel (V := Nat) (fun _ => none) (lit "nltk:corpora/e.yaml", lit "yaml")
        true ⟨[], 0⟩).2.cache.lookup (lit "nltk:corpora/e.yaml", lit "yaml")
      = some none ∧
    (∀ st' : LoadState Nat,
      st'.cache.lookup (lit "nltk:corpora/e.yaml", lit "yaml") = some none →
      (loadModel (fun _ => none) (lit "nltk:corpora/e.yaml", lit "yaml") true st').1
        = (fun _ => (none : Option Nat)) (lit "nltk:corpora/e.yaml", lit "yaml") ∧
      (loadModel (fun _ => none) (lit "nltk:corpora/e.yaml", lit "yaml") true st').2.opens
        = st'.opens + 1) :=
  c10_none_cached_never_served (fun _ => none)
    (lit "nltk:corpora/e.yaml", lit "yaml") ⟨[], 0⟩ rfl rfl

/-! ### C9: `join` on the pointer variants -/

/-- C9 counterexample: the claim says the zip variant's `join` does not
re-validate the combined entry and "never fails for an unlisted entry";
but `ZipFilePathPointer.join` constructs a new pointer, whose `__init__`
checks the entry against the archive listing: joining `c.txt` onto entry
`a` of an archive that lists only `a/b.txt` raises `IOError`. -/
theorem c9_zip_join_fails_unlisted :
    PathPtr.join envZ
      (.zip { filename := lit "/pkg.zip", names := [lit "a/b.txt"], fpOpen := false }
        (lit "a"))
      (lit "c.txt")
    = .error (.ioZipEntryMissing (lit "/pkg.zip") (lit "a/c.txt")) := by
  rfl

/-- C9 (amended): `join` on a filesystem pointer concatenates the paths
and re-validates existence, failing with the no-such-file `IOError` when
the joined path is absent; `join` on a zip pointer concatenates the entry
strings and *does* re-validate the combined entry against the archive's
listing (tolerating unlisted directory entries: an entry ending in `/`
that is a proper prefix of some listed name), failing with `IOError` for
an unlisted entry. -/
theorem c9_join_behavior (env : Env) (p child : Str) (zf : OODZipFile) (entry : Str) :
    (env.pathExists (abspath env (osJoin p child)) = true →
      PathPtr.join env (.fs p) child = .ok (.fs (abspath env (osJoin p child)))) ∧
    (env.pathExists (abspath env (osJoin p child)) = false →
      PathPtr.join env (.fs p) child
        = .error (.ioNoSuchFile (abspath env (osJoin p child)))) ∧
    ((normalizeResourceNameRel (entry ++ '/' :: child)).dropWhile (· = '/')
        ∈ zf.names →
      PathPtr.join env (.zip zf entry) child
        = .ok (.zip zf
            ((normalizeResourceNameRel (entry ++ '/' :: child)).dropWhile (· = '/')))) ∧
    ((normalizeResourceNameRel (entry ++ '/' :: child)).dropWhile (· = '/')
        ∉ zf.names →
      ¬ (((normalizeResourceNameRel (entry ++ '/' :: child)).dropWhile (· = '/')).getLastD ' '
            = '/'
          ∧ zf.names.any (fun n =>
              (((normalizeResourceNameRel (entry ++ '/' :: child)).dropWhile (· = '/')).isPrefixOf
                n))) →
      PathPtr.join env (.zip zf entry) child
        = .error (.ioZipEntryMissing zf.filename
            ((normalizeResourceNameRel (entry ++ '/' :: child)).dropWhile (· = '/')))) := by
  refine ⟨?_, ?_, ?_, ?_⟩
  · intro h
    simp [PathPtr.join, fileSystemPathPointer, h]
  · intro h
    simp [PathPtr.join, fileSystemPathPointer, h]
  · intro h
    have hne : entry ++ '/' :: child ≠ [] := by simp
    have hcheck : zipEntryCheck zf (entry ++ '/' :: child)
        = .ok ((normalizeResourceNameRel (entry ++ '/' :: child)).dropWhile (· = '/')) := by
      simp only [zipEntryCheck]
      rw [if_neg hne, if_pos h]
    show zipFilePathPointerOfZip zf (entry ++ '/' :: child) = _
    simp only [zipFilePathPointerOfZip]
    rw [hcheck]
  · intro h1 h2
    have hne : entry ++ '/' :: child ≠ [] := by simp
    have hcheck : zipEntryCheck zf (entry ++ '/' :: child)
        = .error (.ioZipEntryMissing zf.filename
            ((normalizeResourceNameRel (entry ++ '/' :: child)).dropWhile (· = '/'))) := by
      simp only [zipEntryCheck]
      rw [if_neg hne, if_neg h1, if_neg h2]
    show zipFilePathPointerOfZip zf (entry ++ '/' :: child) = _
    simp only [zipFilePathPointerOfZip]
    rw [hcheck]

/-- C9 witness: a concrete successful filesystem join and a concrete
successful zip join through the directory-tolerance listing. -/
theorem c9_join_behavior_witness :
    PathPtr.join envZ (.fs (lit "/pkg.zip")) (lit "x")
      = .error (.ioNoSuchFile (lit "/pkg.zip/x")) ∧
    PathPtr.join envZ
      (.zip { filename := lit "/pkg.zip", names := [lit "a/b.txt"], fpOpen := false }
        (lit "a"))
      (lit "b.txt")
      = .ok (.zip { filename := lit "/pkg.zip", names := [lit "a/b.txt"], fpOpen := false }
          (lit "a/b.txt")) := by
  refine ⟨?_, ?_⟩
  · exact (c9_join_behavior envZ (lit "/pkg.zip") (lit "x")
      { filename := lit "/pkg.zip", names := [lit "a/b.txt"], fpOpen := false }
      (lit "a")).2.1 (by decide)
  · exact (c9_join_behavior envZ (lit "/pkg.zip") (lit "b.txt")
      { filename := lit "/pkg.zip", names := [lit "a/b.txt"], fpOpen := false }
      (lit "a")).2.2.1 (by decide)


/-! ### Supporting lemmas for the resolver theorems -/

theorem findLoop_append (env : Env) (n : Str) (zs : Option (Str × Str))
    (xs ys : List Str) (hxs : ∀ x ∈ xs, tryRoot env n zs x = .ok none) :
    findLoop env n zs (xs ++ ys) = findLoop env n zs ys := by
  induction xs with
  | nil => rfl
  | cons x rest ih =>
    have hx := hxs x (by simp)
    rw [List.cons_append]
    simp only [findLoop, hx]
    exact ih (fun x' hx' => hxs x' (by simp [hx']))

/-- One-step unfolding of `findAux` at positive fuel (structural, so this
is definitional). -/
theorem findAux_succ (env : Env) (fuel : Nat) (name : Str) (paths : List Str) :
    findAux env (fuel + 1) name paths =
      match findLoop env (normalizeResourceNameRel name)
          (zipSplit (normalizeResourceNameRel name)) paths with
      | .error e => .error e
      | .ok (some ptr) => .ok ptr
      | .ok none =>
        match (if zipSplit (normalizeResourceNameRel name) = none then
                 findFallbackWith (fun m => findAux env fuel m paths)
                   (normalizeResourceNameRel name)
                   (List.range (splitSep (normalizeResourceNameRel name)).length)
               else .ok none : Except Err (Option PathPtr)) with
        | .error e => .error e
        | .ok (some ptr) => .ok ptr
        | .ok none =>
          match (splitSep (normalizeResourceNameRel name)).get? 1 with
          | none => .error .indexError
          | some seg1 =>
            .error (.lookup
              (if (lit ".zip").isSuffixOf seg1 then rpartitionBeforeDot seg1 else seg1)
              (normalizeResourceNameRel name) paths) := rfl

theorem findAux_of_loop_some (env : Env) (fuel : Nat) (name : Str)
    (paths : List Str) (ptr : PathPtr)
    (hloop : findLoop env (normalizeResourceNameRel name)
        (zipSplit (normalizeResourceNameRel name)) paths = .ok (some ptr)) :
    findAux env (fuel + 1) name paths = .ok ptr := by
  simp only [findAux, hloop]

/-- An `ok` result of `ZipFilePathPointer` construction is a zip pointer. -/
theorem zipFilePathPointerOfPath_ok (env : Env) (path entry : Str) (ptr : PathPtr)
    (h : zipFilePathPointerOfPath env path entry = .ok ptr) :
    ∃ zf e, ptr = .zip zf e := by
  unfold zipFilePathPointerOfPath zipFilePathPointerOfZip at h
  split at h
  · exact absurd h (by simp)
  · split at h
    · exact absurd h (by simp)
    · simp only [Except.ok.injEq] at h
      exact ⟨_, _, h.symm⟩

/-- When the name carries an archive component, every pointer `tryRoot`
returns is a zip-entry pointer. -/
theorem tryRoot_some_zip (env : Env) (n : Str) (zp : Str × Str) (x : Str)
    (ptr : PathPtr) (h : tryRoot env n (some zp) x = .ok (some ptr)) :
    ∃ zf e, ptr = .zip zf e := by
  unfold tryRoot at h
  split at h
  · split at h
    · rename_i p heq
      simp only [Except.ok.injEq, Option.some.injEq] at h
      exact h ▸ zipFilePathPointerOfPath_ok env x n p heq
    · split at h <;> simp_all
  · split at h
    · split at h
      · simp_all
      · rename_i heq
        rw [Option.some.injEq] at heq
        split at h
        · split at h
          · rename_i p heq2
            simp only [Except.ok.injEq, Option.some.injEq] at h
            exact h ▸ zipFilePathPointerOfPath_ok env _ _ p heq2
          · split at h <;> simp_all
        · simp_all
    · simp_all

theorem findLoop_some_zip (env : Env) (n : Str) (zp : Str × Str)
    (paths : List Str) (ptr : PathPtr)
    (h : findLoop env n (some zp) paths = .ok (some ptr)) :
    ∃ zf e, ptr = .zip zf e := by
  induction paths with
  | nil => simp [findLoop] at h
  | cons x rest ih =>
    rw [findLoop] at h
    split at h
    · exact ih h
    · rename_i p heq
      simp only [Except.ok.injEq, Option.some.injEq] at h
      exact h ▸ tryRoot_some_zip env n zp x p heq
    · exact absurd h (by simp)

/-- An `ok` of `findAux` on a name whose normalized form carries an
archive component is a zip-entry pointer (the fallback is skipped and only
zip constructions can succeed). -/
theorem findAux_some_zip (env : Env) (fuel : Nat) (name : Str) (paths : List Str)
    (ptr : PathPtr) (zp : Str × Str)
    (hzs : zipSplit (normalizeResourceNameRel name) = some zp)
    (h : findAux env fuel name paths = .ok ptr) :
    ∃ zf e, ptr = .zip zf e := by
  cases fuel with
  | zero => exact absurd h (by simp [findAux])
  | succ fuel =>
    rw [findAux, hzs] at h
    split at h
    · exact absurd h (by simp)
    · rename_i p heq
      simp only [Except.ok.injEq] at h
      exact h ▸ findLoop_some_zip env _ zp paths p heq
    · rw [if_neg (by simp : ¬ (some zp = none))] at h
      split at h
      all_goals try simp_all
      all_goals
        rcases hg : (splitSep (normalizeResourceNameRel name))[1]? with _ | s <;>
          rw [hg] at h <;> simp at h

/-- The fallback over explicit positions: every candidate in `is` fails
with a `LookupError`-kind error, so the whole fallback falls through. -/
theorem findFallbackWith_all_fail (f : Str → Except Err PathPtr) (n' : Str)
    (is : List Nat)
    (h : ∀ j ∈ is, ∃ e, f (fallbackCandidate n' j) = .error e ∧
        e.isLookupError = true) :
    findFallbackWith f n' is = .ok none := by
  induction is with
  | nil => rfl
  | cons j js ih =>
    obtain ⟨e, he, hl⟩ := h j (by simp)
    rw [findFallbackWith]
    simp only [he, hl, if_true]
    exact ih (fun j' hj' => h j' (by simp [hj']))

/-- The fallback over `range' s cnt`: positions before `i` fail with
`LookupError`-kind errors, position `i` succeeds — the first success wins. -/
theorem findFallbackWith_first_ok (f : Str → Except Err PathPtr) (n' : Str)
    (ptr : PathPtr) :
    ∀ (cnt s i : Nat), s ≤ i → i < s + cnt →
    (∀ j, s ≤ j → j < i → ∃ e,
        f (fallbackCandidate n' j) = .error e ∧ e.isLookupError = true) →
    f (fallbackCandidate n' i) = .ok ptr →
    findFallbackWith f n' (List.range' s cnt) = .ok (some ptr) := by
  intro cnt
  induction cnt with
  | zero => intro s i h1 h2; omega
  | succ cnt ih =>
    intro s i h1 h2 hj hi
    rw [List.range'_succ, findFallbackWith]
    rcases Nat.eq_or_lt_of_le h1 with rfl | hlt
    · simp only [hi]
    · obtain ⟨e, he, hl⟩ := hj s (Nat.le_refl s) hlt
      simp only [he, hl, if_true]
      exact ih (s + 1) i hlt (by omega) (fun j ha hb => hj j (by omega) hb) hi

/-! ### C1: literal-path resolution over a root list -/

/-- A filesystem where the archive root `/pkg2.zip` (listing
`corpora/x.txt`) precedes the directory root `/data`, under which the
literal path `/data/corpora/x.txt` also exists. -/
def envZipRoot : Env where
  pathExists p := p = lit "/pkg2.zip" || p = lit "/data" || p = lit "/data/corpora/x.txt"
  isFile p := p = lit "/pkg2.zip" || p = lit "/data/corpora/x.txt"
  isDir p := p = lit "/data"
  cwd := lit "/"
  zipArchive p := if p = lit "/pkg2.zip" then some [lit "corpora/x.txt"] else none
  zipData _ _ := []

/-- C1 counterexample: the name `corpora/x.txt` has no archive component
and its literal joined path exists on disk under the root `/data`; but the
earlier root `/pkg2.zip` is a zip archive containing the name, so `find`
returns its zip-entry pointer, not a filesystem pointer for the first root
whose literal path exists.  The claim fails for root lists containing zip
roots. -/
theorem c1_zip_root_takes_precedence :
    envZipRoot.pathExists (osJoin (lit "/data")
        (normalizeResourceNameRel (lit "corpora/x.txt"))) = true ∧
    zipSplit (normalizeResourceNameRel (lit "corpora/x.txt")) = none ∧
    find envZipRoot (lit "corpora/x.txt") [lit "/pkg2.zip", lit "/data"]
      = .ok (.zip ⟨lit "/pkg2.zip", [lit "corpora/x.txt"], false⟩
          (lit "corpora/x.txt")) :=
  ⟨rfl, rfl, rfl⟩

/-- C1 (amended): for a resource name whose normalized form has no archive
component, and a root list in which every root before `r` falls through
(in particular no earlier root is a zip archive containing the name) and
`r` is a directory root (or the empty root) under which the literal joined
path exists, `find` returns the filesystem pointer for `r` — the gzip
variant exactly when the path ends in `.gz`.  Earlier roots take
precedence: the conclusion is the pointer of the first resolving root.
(The no-percent hypothesis marks where the identity model of the urllib
collaborator `url2pathname` is exact.) -/
theorem c1_find_literal_path (env : Env) (name : Str) (pre post : List Str) (r : Str)
    (hzs : zipSplit (normalizeResourceNameRel name) = none)
    (hpct : '%' ∉ normalizeResourceNameRel name)
    (hpre : ∀ x ∈ pre, tryRoot env (normalizeResourceNameRel name) none x = .ok none)
    (hdir : r = [] ∨ env.isDir r = true)
    (hnotfile : r = [] ∨ env.isFile r = false)
    (hex : env.pathExists (osJoin r (normalizeResourceNameRel name)) = true)
    (hcoh : env.pathExists
        (abspath env (osJoin r (normalizeResourceNameRel name))) = true) :
    find env name (pre ++ r :: post) =
      .ok (if (lit ".gz").isSuffixOf (osJoin r (normalizeResourceNameRel name)) then
            .gzfs (abspath env (osJoin r (normalizeResourceNameRel name)))
          else .fs (abspath env (osJoin r (normalizeResourceNameRel name)))) := by
  have hnz : ¬ (r ≠ [] ∧ env.isFile r = true ∧ (lit ".zip").isSuffixOf r = true) := by
    rcases hnotfile with h | h
    · exact fun hc => hc.1 h
    · exact fun hc => by rw [h] at hc; exact Bool.false_ne_true hc.2.1
  have htr : tryRoot env (normalizeResourceNameRel name) none r
      = .ok (some (if (lit ".gz").isSuffixOf (osJoin r (normalizeResourceNameRel name)) then
          .gzfs (abspath env (osJoin r (normalizeResourceNameRel name)))
        else .fs (abspath env (osJoin r (normalizeResourceNameRel name))))) := by
    unfold tryRoot
    rw [if_neg hnz, if_pos hdir]
    simp only [url2pathname]
    rw [if_pos hex]
    by_cases hgz : (lit ".gz").isSuffixOf (osJoin r (normalizeResourceNameRel name)) = true
    · rw [if_pos hgz, if_pos hgz]
      simp only [gzipFileSystemPathPointer, hcoh, if_true]
      rfl
    · rw [if_neg hgz, if_neg hgz]
      simp only [fileSystemPathPointer, hcoh, if_true]
      rfl
  have hloop : findLoop env (normalizeResourceNameRel name)
      (zipSplit (normalizeResourceNameRel name)) (pre ++ r :: post)
      = .ok (some (if (lit ".gz").isSuffixOf (osJoin r (normalizeResourceNameRel name)) then
          .gzfs (abspath env (osJoin r (normalizeResourceNameRel name)))
        else .fs (abspath env (osJoin r (normalizeResourceNameRel name))))) := by
    rw [hzs, findLoop_append env _ none pre (r :: post) hpre, findLoop, htr]
  exact findAux_of_loop_some env (name.length + 1) name (pre ++ r :: post) _ hloop

/-- A filesystem with only the directory `/d` and the file `/d/a/b.txt`. -/
def envDir : Env where
  pathExists p := p = lit "/d" || p = lit "/d/a/b.txt"
  isFile p := p = lit "/d/a/b.txt"
  isDir p := p = lit "/d"
  cwd := lit "/"
  zipArchive _ := none
  zipData _ _ := []

/-- C1 witness: resolving `a/b.txt` against the single directory root
`/d`. -/
theorem c1_find_literal_path_witness :
    find envDir (lit "a/b.txt") ([] ++ lit "/d" :: []) =
      .ok (if (lit ".gz").isSuffixOf (osJoin (lit "/d")
              (normalizeResourceNameRel (lit "a/b.txt"))) then
            .gzfs (abspath envDir (osJoin (lit "/d")
              (normalizeResourceNameRel (lit "a/b.txt"))))
          else .fs (abspath envDir (osJoin (lit "/d")
              (normalizeResourceNameRel (lit "a/b.txt"))))) :=
  c1_find_literal_path envDir (lit "a/b.txt") [] [] (lit "/d")
    rfl (by decide) (fun x hx => absurd hx (by simp))
    (Or.inr rfl) (Or.inr rfl) rfl rfl

/-! ### C2: the segment-wise zip fallback -/

/-- C2: when the normalized name has no archive component and no root
resolves it directly, `find` retries the candidates `fallbackCandidate`
(segment position `i` replaced by `piece.zip/piece`) left to right; with
every earlier position failing on a `LookupError`-kind error and position
`i` resolving, `find` returns exactly that candidate's pointer, and that
pointer is a zip-entry pointer. -/
theorem c2_zip_fallback (env : Env) (name : Str) (paths : List Str) (i : Nat)
    (ptr : PathPtr) (zp : Str × Str)
    (hzs : zipSplit (normalizeResourceNameRel name) = none)
    (hloop : findLoop env (normalizeResourceNameRel name) none paths = .ok none)
    (hi : i < (splitSep (normalizeResourceNameRel name)).length)
    (hj : ∀ j, j < i → ∃ e, findAux env (name.length + 1)
        (fallbackCandidate (normalizeResourceNameRel name) j) paths = .error e ∧
        e.isLookupError = true)
    (hok : findAux env (name.length + 1)
        (fallbackCandidate (normalizeResourceNameRel name) i) paths = .ok ptr)
    (hczs : zipSplit (normalizeResourceNameRel
        (fallbackCandidate (normalizeResourceNameRel name) i)) = some zp) :
    find env name paths = .ok ptr ∧ ∃ zf e, ptr = .zip zf e := by
  constructor
  · show findAux env (name.length + 1 + 1) name paths = .ok ptr
    have hfb : findFallbackWith (fun m => findAux env (name.length + 1) m paths)
        (normalizeResourceNameRel name)
        (List.range (splitSep (normalizeResourceNameRel name)).length)
        = .ok (some ptr) := by
      rw [List.range_eq_range']
      exact findFallbackWith_first_ok _ _ ptr _ 0 i (Nat.zero_le i) (by omega)
        (fun j _ hjlt => hj j hjlt) hok
    rw [findAux_succ, hzs]
    simp only [hloop]
    rw [if_pos trivial]
    simp only [hfb]
  · exact findAux_some_zip env (name.length + 1) _ paths ptr zp hczs hok

/-- A filesystem where only `/data/corpora/x.zip` exists (a zip archive
listing `x/y.txt`) under the directory root `/data` — the specification's
zip-fallback example. -/
def envZipFallback : Env where
  pathExists p := p = lit "/data" || p = lit "/data/corpora/x.zip"
  isFile p := p = lit "/data/corpora/x.zip"
  isDir p := p = lit "/data"
  cwd := lit "/"
  zipArchive p := if p = lit "/data/corpora/x.zip" then some [lit "x/y.txt"] else none
  zipData _ _ := []

/-- C2 witness: `find("corpora/x/y.txt", ["/data"])` resolves through the
position-1 candidate `corpora/x.zip/x/y.txt`. -/
theorem c2_zip_fallback_witness :
    find envZipFallback (lit "corpora/x/y.txt") [lit "/data"]
      = .ok (.zip ⟨lit "/data/corpora/x.zip", [lit "x/y.txt"], false⟩
          (lit "x/y.txt")) ∧
    ∃ zf e, (PathPtr.zip ⟨lit "/data/corpora/x.zip", [lit "x/y.txt"], false⟩
        (lit "x/y.txt")) = .zip zf e :=
  c2_zip_fallback envZipFallback (lit "corpora/x/y.txt") [lit "/data"] 1
    (.zip ⟨lit "/data/corpora/x.zip", [lit "x/y.txt"], false⟩ (lit "x/y.txt"))
    (lit "corpora/x.zip", lit "x/y.txt")
    rfl rfl (by decide)
    (fun j hjlt => by
      have hj0 : j = 0 := by omega
      subst hj0
      exact ⟨Err.lookup (lit "corpora") (lit "corpora.zip/corpora/x/y.txt")
        [lit "/data"], rfl, rfl⟩)
    rfl rfl

/-! ### C7: the exhausted-resolution error -/

/-- C7 counterexample: for the single-segment name `x` with an empty root
list, the exhausted-resolution path evaluates
`resource_name.split("/")[1]` on a one-piece list, raising `IndexError` —
not the `LookupError` the claim promises for every name. -/
theorem c7_single_segment_index_error :
    find envZ (lit "x") [] = .error .indexError := rfl

/-- C7 (amended): for a resource name whose normalized form has at least
two path segments, if every root falls through and (when the name has no
archive component) every zip-insertion fallback candidate fails with a
`LookupError`-kind error, then `find` fails with the `LookupError` carrying
the attempted root list and the suggested package name derived from the
second path segment (its `.zip` suffix stripped). -/
theorem c7_exhausted_lookup (env : Env) (name : Str) (paths : List Str)
    (hseg : 2 ≤ (splitSep (normalizeResourceNameRel name)).length)
    (hloop : findLoop env (normalizeResourceNameRel name)
        (zipSplit (normalizeResourceNameRel name)) paths = .ok none)
    (hfall : zipSplit (normalizeResourceNameRel name) = none →
      ∀ j ∈ List.range (splitSep (normalizeResourceNameRel name)).length,
        ∃ e, findAux env (name.length + 1)
            (fallbackCandidate (normalizeResourceNameRel name) j) paths = .error e ∧
          e.isLookupError = true) :
    ∃ seg1, (splitSep (normalizeResourceNameRel name)).get? 1 = some seg1 ∧
      find env name paths = .error (.lookup
        (if (lit ".zip").isSuffixOf seg1 then rpartitionBeforeDot seg1 else seg1)
        (normalizeResourceNameRel name) paths) := by
  have h1 : 1 < (splitSep (normalizeResourceNameRel name)).length := by omega
  refine ⟨(splitSep (normalizeResourceNameRel name)).get ⟨1, h1⟩,
    List.get?_eq_get h1, ?_⟩
  show findAux env (name.length + 1 + 1) name paths = _
  rcases hz : zipSplit (normalizeResourceNameRel name) with _ | zp
  · have hfb : findFallbackWith (fun m => findAux env (name.length + 1) m paths)
        (normalizeResourceNameRel name)
        (List.range (splitSep (normalizeResourceNameRel name)).length)
        = .ok none :=
      findFallbackWith_all_fail _ _ _ (hfall hz)
    rw [hz] at hloop
    rw [findAux_succ, hz]
    simp only [hloop]
    rw [if_pos trivial]
    simp only [hfb, List.get?_eq_get h1]
  · rw [hz] at hloop
    rw [findAux_succ, hz]
    simp only [hloop]
    rw [if_neg (by simp : ¬ (some zp = none))]
    simp only [List.get?_eq_get h1]

/-- C7 witness: `corpora/missing` over the single directory root `/d`. -/
theorem c7_exhausted_lookup_witness :
    ∃ seg1, (splitSep (normalizeResourceNameRel (lit "corpora/missing"))).get? 1
        = some seg1 ∧
      find envDir (lit "corpora/missing") [lit "/d"] = .error (.lookup
        (if (lit ".zip").isSuffixOf seg1 then rpartitionBeforeDot seg1 else seg1)
        (normalizeResourceNameRel (lit "corpora/missing")) [lit "/d"]) :=
  c7_exhausted_lookup envDir (lit "corpora/missing") [lit "/d"]
    (by decide) rfl
    (fun _ j hj => by
      have hlt : j < 2 := by
        have h := List.mem_range.mp hj
        have hlen : (splitSep (normalizeResourceNameRel
            (lit "corpora/missing"))).length = 2 := rfl
        rwa [hlen] at h
      interval_cases j
      · exact ⟨Err.lookup (lit "corpora") (lit "corpora.zip/corpora/missing")
          [lit "/d"], rfl, rfl⟩
      · exact ⟨Err.lookup (lit "missing") (lit "corpora/missing.zip/missing")
          [lit "/d"], rfl, rfl⟩)


/-! ### Generic facts about per-character encodings

The two codecs are per-character encodings (`encStr` is `flatMap` of a
per-character encoder).  `cutFn t m` is the number of whole characters of
`t` whose encodings fit in the first `m` bytes — the amount an incremental
decode of an `m`-byte prefix delivers.  `CodecSpec` packages the two facts
the reader proofs need about a codec: every character costs at least one
byte, and `_incr_decode` on a prefix of an encoded text yields exactly the
whole characters that fit, consuming exactly their bytes. -/

def cutFn (encChar : Char → Bytes) : Str → Nat → Nat
  | [], _ => 0
  | ch :: rest, m =>
    if (encChar ch).length ≤ m then cutFn encChar rest (m - (encChar ch).length) + 1
    else 0

theorem encStr_append (encChar : Char → Bytes) (a b : Str) :
    encStr encChar (a ++ b) = encStr encChar a ++ encStr encChar b := by
  simp [encStr]

theorem encStr_cons (encChar : Char → Bytes) (ch : Char) (rest : Str) :
    encStr encChar (ch :: rest) = encChar ch ++ encStr encChar rest := by
  simp [encStr]

theorem encStr_take_drop (encChar : Char → Bytes) (t : Str) (j : Nat) :
    encStr encChar t = encStr encChar (t.take j) ++ encStr encChar (t.drop j) := by
  rw [← encStr_append, List.take_append_drop]

theorem length_le_encStr (encChar : Char → Bytes)
    (h1 : ∀ ch, 1 ≤ (encChar ch).length) (t : Str) :
    t.length ≤ (encStr encChar t).length := by
  induction t with
  | nil => simp [encStr]
  | cons ch rest ih =>
    rw [encStr_cons]
    simp only [List.length_append, List.length_cons]
    have := h1 ch
    omega

theorem cutFn_le_length (encChar : Char → Bytes) (t : Str) (m : Nat) :
    cutFn encChar t m ≤ t.length := by
  induction t generalizing m with
  | nil => simp [cutFn]
  | cons ch rest ih =>
    rw [cutFn]
    split
    · have := ih (m - (encChar ch).length)
      simp only [List.length_cons]
      omega
    · simp

theorem cutFn_le (encChar : Char → Bytes)
    (h1 : ∀ ch, 1 ≤ (encChar ch).length) (t : Str) (m : Nat) :
    cutFn encChar t m ≤ m := by
  induction t generalizing m with
  | nil => simp [cutFn]
  | cons ch rest ih =>
    rw [cutFn]
    split
    · have := ih (m - (encChar ch).length)
      have := h1 ch
      omega
    · simp

theorem encStr_take_cutFn_le (encChar : Char → Bytes) (t : Str) (m : Nat) :
    (encStr encChar (t.take (cutFn encChar t m))).length ≤ m := by
  induction t generalizing m with
  | nil => simp [cutFn, encStr]
  | cons ch rest ih =>
    rw [cutFn]
    split
    · rw [List.take_succ_cons, encStr_cons]
      have := ih (m - (encChar ch).length)
      simp only [List.length_append]
      omega
    · simp [encStr]

theorem cutFn_full (encChar : Char → Bytes) (t : Str) (m : Nat)
    (h : (encStr encChar t).length ≤ m) : cutFn encChar t m = t.length := by
  induction t generalizing m with
  | nil => simp [cutFn]
  | cons ch rest ih =>
    rw [encStr_cons] at h
    simp only [List.length_append] at h
    rw [cutFn, if_pos (by omega)]
    rw [ih (m - (encChar ch).length) (by omega)]
    simp

theorem cutFn_boundary (encChar : Char → Bytes)
    (h1 : ∀ ch, 1 ≤ (encChar ch).length) (t : Str) (k : Nat) (hk : k ≤ t.length) :
    cutFn encChar t ((encStr encChar (t.take k)).length) = k := by
  induction t generalizing k with
  | nil => simp_all [cutFn]
  | cons ch rest ih =>
    cases k with
    | zero =>
      simp only [List.take_zero, encStr, List.flatMap_nil, List.length_nil]
      rw [cutFn, if_neg (by have := h1 ch; omega)]
    | succ k =>
      rw [List.take_succ_cons, encStr_cons, cutFn]
      simp only [List.length_append]
      rw [if_pos (by have := h1 ch; omega)]
      rw [Nat.add_sub_cancel_left]
      rw [ih k (by simp only [List.length_cons] at hk; omega)]

theorem cutFn_lt_next (encChar : Char → Bytes) (t : Str) (m : Nat)
    (h : cutFn encChar t m < t.length) :
    m < (encStr encChar (t.take (cutFn encChar t m + 1))).length := by
  induction t generalizing m with
  | nil => simp at h
  | cons ch rest ih =>
    rw [cutFn] at h ⊢
    split at h
    · rename_i hle
      rw [if_pos hle]
      rw [List.take_succ_cons, encStr_cons]
      have := ih (m - (encChar ch).length) (by simpa using h)
      simp only [List.length_append]
      omega
    · rename_i hgt
      rw [if_neg hgt]
      rw [List.take_succ_cons, List.take_zero, encStr_cons]
      simp only [encStr, List.flatMap_nil, List.append_nil]
      omega

theorem cutFn_mono (encChar : Char → Bytes) (t : Str) (m m' : Nat) (h : m ≤ m') :
    cutFn encChar t m ≤ cutFn encChar t m' := by
  induction t generalizing m m' with
  | nil => simp [cutFn]
  | cons ch rest ih =>
    rw [cutFn, cutFn]
    split
    · rw [if_pos (by omega)]
      have := ih (m - (encChar ch).length) (m' - (encChar ch).length) (by omega)
      omega
    · simp

theorem cutFn_sub (encChar : Char → Bytes)
    (h1 : ∀ ch, 1 ≤ (encChar ch).length) (t : Str) (m y : Nat) :
    cutFn encChar t m - y ≤ cutFn encChar t (m - y) := by
  induction t generalizing m y with
  | nil => simp [cutFn]
  | cons ch rest ih =>
    rcases Nat.eq_zero_or_pos y with rfl | hy
    · simp
    rw [cutFn, cutFn]
    split
    · rename_i hle
      by_cases hle2 : (encChar ch).length ≤ m - y
      · rw [if_pos hle2]
        have := ih (m - (encChar ch).length) y
        have heq : m - y - (encChar ch).length = m - (encChar ch).length - y := by omega
        rw [heq]
        omega
      · rw [if_neg hle2]
        have hc := cutFn_le encChar h1 rest (m - (encChar ch).length)
        have := h1 ch
        omega
    · simp

/-- The contract of `_incr_decode` against a per-character encoding:
decoding any `m`-byte prefix of an encoded text yields exactly the whole
characters that fit in `m` bytes and consumes exactly their encoding. -/
structure CodecSpec (c : Codec) (encChar : Char → Bytes) : Prop where
  one_le : ∀ ch, 1 ≤ (encChar ch).length
  incr_take : ∀ (t : Str) (m : Nat), m ≤ (encStr encChar t).length →
    incrDecode c .strict ((encStr encChar t).take m)
      = .ok (t.take (cutFn encChar t m),
             (encStr encChar (t.take (cutFn encChar t m))).length)

theorem CodecSpec.incr_full {c : Codec} {encChar : Char → Bytes}
    (spec : CodecSpec c encChar) (t : Str) :
    incrDecode c .strict (encStr encChar t)
      = .ok (t, (encStr encChar t).length) := by
  have h := spec.incr_take t (encStr encChar t).length (Nat.le_refl _)
  rw [List.take_length] at h
  rw [cutFn_full encChar t _ (Nat.le_refl _)] at h
  rw [List.take_length] at h
  exact h



/-! ### The two codecs satisfy the incremental-decode contract

`utf8Dec` is defined by a nested match; the unfolding equations below
(one per input shape, proved by `rfl`) drive all symbolic reasoning. -/

theorem utf8Dec_nil : utf8Dec [] = .ok [] := rfl

theorem utf8Dec_one (b : Nat) :
    utf8Dec [b] =
      (if b < 0x80 then shiftErr 1 (consDec (Char.ofNat b) (utf8Dec []))
       else if b < 0xC2 then .error (0, 1)
       else if b < 0xE0 then .error (0, 1)
       else if b < 0xF0 then .error (0, 1)
       else if b < 0xF5 then .error (0, 1)
       else .error (0, 1)) := rfl

theorem utf8Dec_two (b b1 : Nat) :
    utf8Dec [b, b1] =
      (if b < 0x80 then shiftErr 1 (consDec (Char.ofNat b) (utf8Dec [b1]))
       else if b < 0xC2 then .error (0, 1)
       else if b < 0xE0 then
         if isCont b1 then
           shiftErr 2 (consDec (Char.ofNat ((b - 0xC0) * 64 + (b1 - 0x80))) (utf8Dec []))
         else .error (0, 1)
       else if b < 0xF0 then
         if cont3first b b1 then .error (0, 2) else .error (0, 1)
       else if b < 0xF5 then
         if cont4first b b1 then .error (0, 2) else .error (0, 1)
       else .error (0, 1)) := rfl

theorem utf8Dec_three (b b1 b2 : Nat) :
    utf8Dec [b, b1, b2] =
      (if b < 0x80 then shiftErr 1 (consDec (Char.ofNat b) (utf8Dec [b1, b2]))
       else if b < 0xC2 then .error (0, 1)
       else if b < 0xE0 then
         if isCont b1 then
           shiftErr 2 (consDec (Char.ofNat ((b - 0xC0) * 64 + (b1 - 0x80))) (utf8Dec [b2]))
         else .error (0, 1)
       else if b < 0xF0 then
         if cont3first b b1 then
           if isCont b2 then
             shiftErr 3 (consDec
               (Char.ofNat ((b - 0xE0) * 4096 + (b1 - 0x80) * 64 + (b2 - 0x80)))
               (utf8Dec []))
           else .error (0, 2)
         else .error (0, 1)
       else if b < 0xF5 then
         if cont4first b b1 then
           if isCont b2 then .error (0, 3) else .error (0, 2)
         else .error (0, 1)
       else .error (0, 1)) := rfl

theorem utf8Dec_cons4 (b b1 b2 b3 : Nat) (bs : Bytes) :
    utf8Dec (b :: b1 :: b2 :: b3 :: bs) =
      (if b < 0x80 then shiftErr 1 (consDec (Char.ofNat b) (utf8Dec (b1 :: b2 :: b3 :: bs)))
       else if b < 0xC2 then .error (0, 1)
       else if b < 0xE0 then
         if isCont b1 then
           shiftErr 2 (consDec (Char.ofNat ((b - 0xC0) * 64 + (b1 - 0x80)))
             (utf8Dec (b2 :: b3 :: bs)))
         else .error (0, 1)
       else if b < 0xF0 then
         if cont3first b b1 then
           if isCont b2 then
             shiftErr 3 (consDec
               (Char.ofNat ((b - 0xE0) * 4096 + (b1 - 0x80) * 64 + (b2 - 0x80)))
               (utf8Dec (b3 :: bs)))
           else .error (0, 2)
         else .error (0, 1)
       else if b < 0xF5 then
         if cont4first b b1 then
           if isCont b2 then
             if isCont b3 then
               shiftErr 4 (consDec
                 (Char.ofNat ((b - 0xF0) * 262144 + (b1 - 0x80) * 4096 +
                   (b2 - 0x80) * 64 + (b3 - 0x80)))
                 (utf8Dec bs))
             else .error (0, 3)
           else .error (0, 2)
         else .error (0, 1)
       else .error (0, 1)) := rfl

/-- Scalar values of `Char` avoid the surrogate range and stay below
`0x110000` (Lean's `Char` matches Python's `str` code points). -/
theorem char_valid_nat (ch : Char) :
    ch.toNat < 0xD800 ∨ (0xDFFF < ch.toNat ∧ ch.toNat < 0x110000) := by
  have h := ch.valid
  unfold UInt32.isValidChar at h
  rcases h with h | ⟨h1, h2⟩
  · exact Or.inl h
  · exact Or.inr ⟨h1, h2⟩

theorem char_toNat_lt (ch : Char) : ch.toNat < 0x110000 := by
  rcases char_valid_nat ch with h | ⟨_, h⟩
  · omega
  · exact h

/-- Decoding one encoded character at the head of a byte string parses the
character and recurses on the rest. -/
theorem utf8Dec_encChar (ch : Char) (bs : Bytes) :
    utf8Dec (utf8EncChar ch ++ bs)
      = shiftErr (utf8EncChar ch).length (consDec ch (utf8Dec bs)) := by
  have hv := char_valid_nat ch
  have hub := char_toNat_lt ch
  have hofn : Char.ofNat ch.toNat = ch := Char.ofNat_toNat ch
  simp only [utf8EncChar]
  by_cases h1 : ch.toNat < 0x80
  · rw [if_pos h1]
    simp only [List.cons_append, List.nil_append, List.length_cons, List.length_nil]
    rcases bs with _ | ⟨a, _ | ⟨b, _ | ⟨c, r⟩⟩⟩ <;>
      simp only [utf8Dec_one, utf8Dec_two, utf8Dec_three, utf8Dec_cons4, if_pos h1, hofn]
  · rw [if_neg h1]
    by_cases h2 : ch.toNat < 0x800
    · rw [if_pos h2]
      simp only [List.cons_append, List.nil_append, List.length_cons, List.length_nil]
      have e1 : ¬ (0xC0 + ch.toNat / 64 < 0x80) := by omega
      have e2 : ¬ (0xC0 + ch.toNat / 64 < 0xC2) := by omega
      have e3 : 0xC0 + ch.toNat / 64 < 0xE0 := by omega
      have e4 : isCont (0x80 + ch.toNat % 64) = true := by
        simp only [isCont, Bool.and_eq_true, decide_eq_true_eq]
        omega
      have e5 : (0xC0 + ch.toNat / 64 - 0xC0) * 64 + (0x80 + ch.toNat % 64 - 0x80)
          = ch.toNat := by omega
      rcases bs with _ | ⟨a, _ | ⟨b, r⟩⟩ <;>
        simp only [utf8Dec_two, utf8Dec_three, utf8Dec_cons4,
          if_neg e1, if_neg e2, if_pos e3, if_pos e4, e5, hofn]
    · rw [if_neg h2]
      by_cases h3 : ch.toNat < 0x10000
      · rw [if_pos h3]
        simp only [List.cons_append, List.nil_append, List.length_cons, List.length_nil]
        have e1 : ¬ (0xE0 + ch.toNat / 4096 < 0x80) := by omega
        have e2 : ¬ (0xE0 + ch.toNat / 4096 < 0xC2) := by omega
        have e3 : ¬ (0xE0 + ch.toNat / 4096 < 0xE0) := by omega
        have e4 : 0xE0 + ch.toNat / 4096 < 0xF0 := by omega
        have e5 : cont3first (0xE0 + ch.toNat / 4096) (0x80 + ch.toNat / 64 % 64) = true := by
          unfold cont3first
          split_ifs with hb hb
          · simp only [Bool.and_eq_true, decide_eq_true_eq]
            omega
          · simp only [Bool.and_eq_true, decide_eq_true_eq]
            rcases hv with hv | ⟨hv1, hv2⟩ <;> omega
          · simp only [isCont, Bool.and_eq_true, decide_eq_true_eq]
            omega
        have e6 : isCont (0x80 + ch.toNat % 64) = true := by
          simp only [isCont, Bool.and_eq_true, decide_eq_true_eq]
          omega
        have e7 : (0xE0 + ch.toNat / 4096 - 0xE0) * 4096 +
            (0x80 + ch.toNat / 64 % 64 - 0x80) * 64 + (0x80 + ch.toNat % 64 - 0x80)
            = ch.toNat := by omega
        rcases bs with _ | ⟨a, r⟩ <;>
          simp only [utf8Dec_three, utf8Dec_cons4,
            if_neg e1, if_neg e2, if_neg e3, if_pos e4, if_pos e5, if_pos e6, e7, hofn]
      · rw [if_neg h3]
        simp only [List.cons_append, List.nil_append, List.length_cons, List.length_nil]
        have e1 : ¬ (0xF0 + ch.toNat / 262144 < 0x80) := by omega
        have e2 : ¬ (0xF0 + ch.toNat / 262144 < 0xC2) := by omega
        have e3 : ¬ (0xF0 + ch.toNat / 262144 < 0xE0) := by omega
        have e4 : ¬ (0xF0 + ch.toNat / 262144 < 0xF0) := by omega
        have e5 : 0xF0 + ch.toNat / 262144 < 0xF5 := by omega
        have e6 : cont4first (0xF0 + ch.toNat / 262144) (0x80 + ch.toNat / 4096 % 64) = true := by
          unfold cont4first
          split_ifs with hb hb
          · simp only [Bool.and_eq_true, decide_eq_true_eq]
            omega
          · simp only [Bool.and_eq_true, decide_eq_true_eq]
            omega
          · simp only [isCont, Bool.and_eq_true, decide_eq_true_eq]
            omega
        have e7 : isCont (0x80 + ch.toNat / 64 % 64) = true := by
          simp only [isCont, Bool.and_eq_true, decide_eq_true_eq]
          omega
        have e8 : isCont (0x80 + ch.toNat % 64) = true := by
          simp only [isCont, Bool.and_eq_true, decide_eq_true_eq]
          omega
        have e9 : (0xF0 + ch.toNat / 262144 - 0xF0) * 262144 +
            (0x80 + ch.toNat / 4096 % 64 - 0x80) * 4096 +
            (0x80 + ch.toNat / 64 % 64 - 0x80) * 64 + (0x80 + ch.toNat % 64 - 0x80)
            = ch.toNat := by omega
        simp only [utf8Dec_cons4, if_neg e1, if_neg e2, if_neg e3, if_neg e4, if_pos e5,
          if_pos e6, if_pos e7, if_pos e8, e9, hofn]


/-- A strict prefix of one character's encoding is the truncated-data
error, with `stop` equal to the input length. -/
theorem utf8Dec_encChar_take (ch : Char) (m : Nat) (hm1 : 1 ≤ m)
    (hm2 : m < (utf8EncChar ch).length) :
    utf8Dec ((utf8EncChar ch).take m) = .error (0, m) := by
  have hv := char_valid_nat ch
  have hub := char_toNat_lt ch
  simp only [utf8EncChar] at hm2 ⊢
  by_cases h1 : ch.toNat < 0x80
  · rw [if_pos h1] at hm2
    simp only [List.length_cons, List.length_nil] at hm2
    omega
  · rw [if_neg h1] at hm2 ⊢
    by_cases h2 : ch.toNat < 0x800
    · rw [if_pos h2] at hm2 ⊢
      simp only [List.length_cons, List.length_nil] at hm2
      have e1 : ¬ (0xC0 + ch.toNat / 64 < 0x80) := by omega
      have e2 : ¬ (0xC0 + ch.toNat / 64 < 0xC2) := by omega
      have e3 : 0xC0 + ch.toNat / 64 < 0xE0 := by omega
      have hm : m = 1 := by omega
      subst hm
      show utf8Dec [0xC0 + ch.toNat / 64] = .error (0, 1)
      rw [utf8Dec_one, if_neg e1, if_neg e2, if_pos e3]
    · rw [if_neg h2] at hm2 ⊢
      by_cases h3 : ch.toNat < 0x10000
      · rw [if_pos h3] at hm2 ⊢
        simp only [List.length_cons, List.length_nil] at hm2
        have e1 : ¬ (0xE0 + ch.toNat / 4096 < 0x80) := by omega
        have e2 : ¬ (0xE0 + ch.toNat / 4096 < 0xC2) := by omega
        have e3 : ¬ (0xE0 + ch.toNat / 4096 < 0xE0) := by omega
        have e4 : 0xE0 + ch.toNat / 4096 < 0xF0 := by omega
        have e5 : cont3first (0xE0 + ch.toNat / 4096) (0x80 + ch.toNat / 64 % 64) = true := by
          unfold cont3first
          split_ifs with hb hb
          · simp only [Bool.and_eq_true, decide_eq_true_eq]
            omega
          · simp only [Bool.and_eq_true, decide_eq_true_eq]
            rcases hv with hv | ⟨hv1, hv2⟩ <;> omega
          · simp only [isCont, Bool.and_eq_true, decide_eq_true_eq]
            omega
        rcases Nat.lt_or_ge m 2 with hm | hm
        · have hm : m = 1 := by omega
          subst hm
          show utf8Dec [0xE0 + ch.toNat / 4096] = .error (0, 1)
          rw [utf8Dec_one, if_neg e1, if_neg e2, if_neg e3, if_pos e4]
        · have hm : m = 2 := by omega
          subst hm
          show utf8Dec [0xE0 + ch.toNat / 4096, 0x80 + ch.toNat / 64 % 64] = .error (0, 2)
          rw [utf8Dec_two, if_neg e1, if_neg e2, if_neg e3, if_pos e4, if_pos e5]
      · rw [if_neg h3] at hm2 ⊢
        simp only [List.length_cons, List.length_nil] at hm2
        have e1 : ¬ (0xF0 + ch.toNat / 262144 < 0x80) := by omega
        have e2 : ¬ (0xF0 + ch.toNat / 262144 < 0xC2) := by omega
        have e3 : ¬ (0xF0 + ch.toNat / 262144 < 0xE0) := by omega
        have e4 : ¬ (0xF0 + ch.toNat / 262144 < 0xF0) := by omega
        have e5 : 0xF0 + ch.toNat / 262144 < 0xF5 := by omega
        have e6 : cont4first (0xF0 + ch.toNat / 262144) (0x80 + ch.toNat / 4096 % 64) = true := by
          unfold cont4first
          split_ifs with hb hb
          · simp only [Bool.and_eq_true, decide_eq_true_eq]
            omega
          · simp only [Bool.and_eq_true, decide_eq_true_eq]
            omega
          · simp only [isCont, Bool.and_eq_true, decide_eq_true_eq]
            omega
        have e7 : isCont (0x80 + ch.toNat / 64 % 64) = true := by
          simp only [isCont, Bool.and_eq_true, decide_eq_true_eq]
          omega
        rcases Nat.lt_or_ge m 2 with hm | hm
        · have hm : m = 1 := by omega
          subst hm
          show utf8Dec [0xF0 + ch.toNat / 262144] = .error (0, 1)
          rw [utf8Dec_one, if_neg e1, if_neg e2, if_neg e3, if_neg e4, if_pos e5]
        · rcases Nat.lt_or_ge m 3 with hm3 | hm3
          · have hm : m = 2 := by omega
            subst hm
            show utf8Dec [0xF0 + ch.toNat / 262144, 0x80 + ch.toNat / 4096 % 64]
              = .error (0, 2)
            rw [utf8Dec_two, if_neg e1, if_neg e2, if_neg e3, if_neg e4, if_pos e5, if_pos e6]
          · have hm : m = 3 := by omega
            subst hm
            show utf8Dec [0xF0 + ch.toNat / 262144, 0x80 + ch.toNat / 4096 % 64,
              0x80 + ch.toNat / 64 % 64] = .error (0, 3)
            rw [utf8Dec_three, if_neg e1, if_neg e2, if_neg e3, if_neg e4, if_pos e5,
              if_pos e6, if_pos e7]


/-- Decoding any prefix of an encoded text: whole characters that fit,
plus a truncation error when the cut falls inside a character. -/
theorem utf8Dec_take (t : Str) : ∀ (m : Nat), m ≤ (encStr utf8EncChar t).length →
    utf8Dec ((encStr utf8EncChar t).take m)
      = if m = (encStr utf8EncChar (t.take (cutFn utf8EncChar t m))).length
        then .ok (t.take (cutFn utf8EncChar t m))
        else .error ((encStr utf8EncChar (t.take (cutFn utf8EncChar t m))).length, m) := by
  induction t with
  | nil =>
    intro m hm
    simp only [encStr, List.flatMap_nil, List.length_nil, Nat.le_zero] at hm
    subst hm
    simp [cutFn, encStr, utf8Dec_nil]
  | cons ch rest ih =>
    intro m hm
    have hL : 1 ≤ (utf8EncChar ch).length := by
      simp only [utf8EncChar]
      split_ifs <;> simp
    rw [encStr_cons] at hm ⊢
    simp only [List.length_append] at hm
    rw [List.take_append_eq_append_take]
    by_cases hc : (utf8EncChar ch).length ≤ m
    · rw [List.take_of_length_le hc]
      rw [utf8Dec_encChar]
      rw [ih (m - (utf8EncChar ch).length) (by omega)]
      rw [cutFn]
      rw [if_pos hc]
      rw [List.take_succ_cons, encStr_cons]
      simp only [List.length_append]
      by_cases he : m - (utf8EncChar ch).length
          = (encStr utf8EncChar (rest.take (cutFn utf8EncChar rest
              (m - (utf8EncChar ch).length)))).length
      · rw [if_pos he, if_pos (by omega)]
        rfl
      · rw [if_neg he, if_neg (by omega)]
        show Except.error _ = _
        congr 1
        simp only [Prod.mk.injEq]
        constructor <;> omega
    · rw [cutFn, if_neg hc]
      have h0 : m - (utf8EncChar ch).length = 0 := by omega
      rw [h0]
      rcases Nat.eq_zero_or_pos m with hm0 | hm0
      · subst hm0
        simp [encStr, utf8Dec_nil]
      · rw [List.take_zero, List.append_nil]
        rw [utf8Dec_encChar_take ch m hm0 (by omega)]
        simp only [List.take_zero, encStr, List.flatMap_nil, List.length_nil]
        rw [if_neg (by omega)]


/-- `_incr_decode` contract for UTF-8. -/
theorem utf8_incr_take (t : Str) (m : Nat) (hm : m ≤ (encStr utf8EncChar t).length) :
    incrDecode utf8Codec .strict ((encStr utf8EncChar t).take m)
      = .ok (t.take (cutFn utf8EncChar t m),
             (encStr utf8EncChar (t.take (cutFn utf8EncChar t m))).length) := by
  have hlen : ((encStr utf8EncChar t).take m).length = m := by
    simp only [List.length_take]
    omega
  have hk := encStr_take_cutFn_le utf8EncChar t m
  simp only [incrDecode, utf8Codec]
  rw [utf8Dec_take t m hm, hlen]
  by_cases he : m = (encStr utf8EncChar (t.take (cutFn utf8EncChar t m))).length
  · rw [if_pos he]
    show Except.ok (t.take (cutFn utf8EncChar t m), m) = _
    exact congrArg (fun z => Except.ok (t.take (cutFn utf8EncChar t m), z)) he
  · rw [if_neg he]
    simp only []
    rw [if_pos trivial]
    have htk : ((encStr utf8EncChar t).take m).take
        ((encStr utf8EncChar (t.take (cutFn utf8EncChar t m))).length)
        = encStr utf8EncChar (t.take (cutFn utf8EncChar t m)) := by
      rw [List.take_take]
      rw [min_eq_left hk]
      have hsplit : encStr utf8EncChar t
          = encStr utf8EncChar (t.take (cutFn utf8EncChar t m))
            ++ encStr utf8EncChar (t.drop (cutFn utf8EncChar t m)) := by
        rw [← encStr_append, List.take_append_drop]
      rw [hsplit, List.take_left]
    rw [htk]
    have hfull := utf8Dec_take (t.take (cutFn utf8EncChar t m))
      ((encStr utf8EncChar (t.take (cutFn utf8EncChar t m))).length) (Nat.le_refl _)
    rw [List.take_length] at hfull
    rw [cutFn_full utf8EncChar _ _ (Nat.le_refl _)] at hfull
    rw [List.take_length] at hfull
    rw [if_pos rfl] at hfull
    rw [hfull]

/-- Latin-1 encodes one byte per character. -/
theorem encStr_latin1 (t : Str) : encStr latin1EncChar t = t.map Char.toNat := by
  induction t with
  | nil => rfl
  | cons ch rest ih =>
    simp [encStr, latin1EncChar] at ih ⊢
    exact ih

theorem cutFn_latin1 (t : Str) (m : Nat) : cutFn latin1EncChar t m = min m t.length := by
  induction t generalizing m with
  | nil => simp [cutFn]
  | cons ch rest ih =>
    rw [cutFn]
    simp only [latin1EncChar, List.length_cons, List.length_nil]
    split
    · rw [ih]
      omega
    · omega

/-- `_incr_decode` contract for Latin-1. -/
theorem latin1_incr_take (t : Str) (m : Nat) :
    incrDecode latin1Codec .strict ((encStr latin1EncChar t).take m)
      = .ok (t.take (cutFn latin1EncChar t m),
             (encStr latin1EncChar (t.take (cutFn latin1EncChar t m))).length) := by
  rw [cutFn_latin1, encStr_latin1, encStr_latin1]
  simp only [incrDecode, latin1Codec]
  have h1 : ((t.map Char.toNat).take m).map Char.ofNat = t.take (min m t.length) := by
    rw [← List.map_take, List.map_map]
    have hid : (Char.ofNat ∘ Char.toNat) = id := by
      funext x
      exact Char.ofNat_toNat x
    rw [hid, List.map_id, List.take_eq_take]
    omega
  have h2 : ((t.map Char.toNat).take m).length = min m t.length := by
    simp [List.length_take]
  rw [h1, h2]
  simp [List.length_take]

theorem latin1CodecSpec : CodecSpec latin1Codec latin1EncChar := by
  constructor
  · intro ch
    simp [latin1EncChar]
  · intro t m _
    exact latin1_incr_take t m

theorem utf8EncChar_one_le (ch : Char) : 1 ≤ (utf8EncChar ch).length := by
  simp only [utf8EncChar]
  split_ifs <;> simp

theorem utf8CodecSpec : CodecSpec utf8Codec utf8EncChar := by
  constructor
  · exact utf8EncChar_one_le
  · exact utf8_incr_take

/-- Per-character encoder of each supported encoding. -/
def Encoding.encChar : Encoding → Char → Bytes
  | .latin1 => latin1EncChar
  | .utf8 => utf8EncChar

theorem encodingCodecSpec (enc : Encoding) : CodecSpec enc.codec enc.encChar := by
  cases enc
  · exact latin1CodecSpec
  · exact utf8CodecSpec

/-- Side condition making a modelled text faithful to a real byte stream:
Latin-1 can only encode code points below 256 (the model would otherwise
accept out-of-range "bytes"); every `Char` is UTF-8 encodable. -/
def encOK : Encoding → Str → Prop
  | .latin1, t => ∀ ch ∈ t, ch.toNat < 0x100
  | .utf8, _ => True

end NltkData
